import Mathlib

/-!
# Verification of the DataStructures container library

Shallow embedding of the three-layer deque composition from the repository:

* `CachingAllocator` (the spec's *SegmentPool*), from `CachingAllocator.h`
  (visible in the repository sources next to `test_vector.cpp`): a cache of
  raw blocks with a maximum retained count.
* `CircularBuffer` (the spec's *RingBuffer*), from `CircularBuffer.h`
  (the rule-of-five variant with `begin_pos`/`end_pos`): a wrapping buffer
  over a contiguous backing store with geometric growth/shrink.
* `Deque` (the spec's *SegmentedDeque*), from `Deque.h`: fixed-capacity
  segments of `fixed_arr_n_elem` slots held through a buffer of segment
  handles, plus boundary offsets `first_idx`/`last_idx`.

Machine integers of the source (`size_t`) are modelled as `ℕ`; the only
place where wraparound matters (`--last_idx` in `Deque::pop_back` when
`last_idx == 0`) is modelled with an explicit `% 2^64` style huge value.
Raw uninitialized memory slots are modelled as `Option` values (`none` =
no live object).  Operations whose C++ body can trip an `assert` (or
dereference an invalid slot) return `Option`/`none` at exactly those
program points.
-/

namespace DS

/-! ## SegmentPool: `CachingAllocator<T>` (test_vector.cpp / CachingAllocator.h)

State: `cache` is the vector of idle raw blocks (modelled by abstract block
ids; index 0 is the front of the `std::vector`, the back of the list is
`cache.back()`), `max_reserve` the construction-time retained maximum and
`next_fresh` a source of fresh ids standing for `operator new` results. -/

structure CAState where
  cache : List ℕ
  max_reserve : ℕ
  next_fresh : ℕ
  deriving DecidableEq

/-- Constructor `CachingAllocator(initial_reserve, max_reserve_)`: reserves
and fills the cache with `initial_reserve` freshly allocated raw blocks,
regardless of `max_reserve_`. -/
def CAState.mkCA (initial_reserve max_reserve : ℕ) : CAState :=
  { cache := List.range initial_reserve
    max_reserve := max_reserve
    next_fresh := initial_reserve }

/-- `allocate(args...)`: pop the most recently cached block if the cache is
nonempty (`cache.back()` + `pop_back`), otherwise obtain a fresh block;
a `T` is then constructed in the block (construction has no effect on the
pool state). Returns the new pool state and the block handed out. -/
def CAState.allocate (s : CAState) : CAState × ℕ :=
  match h : s.cache.getLast? with
  | some p => ({ s with cache := s.cache.dropLast }, p)
  | none => ({ s with next_fresh := s.next_fresh + 1 }, s.next_fresh)

/-- `operator()(T *ptr)` — the deleter run when a handle's ownership ends.
The occupant's destructor runs first (`ptr->~T()`); then, if the cache
already holds at least `max_reserve` blocks the block is physically freed,
otherwise it is stored at the back of the cache.  The returned `Bool` is
`true` when the block was stored in the idle set and `false` when it was
freed. -/
def CAState.release (s : CAState) (p : ℕ) : CAState × Bool :=
  if s.max_reserve ≤ s.cache.length then (s, false)
  else ({ s with cache := s.cache ++ [p] }, true)

/-- One pool interaction: an acquire, or a release of block `p`. -/
inductive CAOp where
  | alloc : CAOp
  | rel : ℕ → CAOp
  deriving DecidableEq

def CAState.applyOp (s : CAState) : CAOp → CAState
  | .alloc => s.allocate.1
  | .rel p => (s.release p).1

/-- Replay a sequence of acquire/release operations on a pool. -/
def CAState.run (s : CAState) (ops : List CAOp) : CAState :=
  ops.foldl CAState.applyOp s

lemma CAState.applyOp_max_reserve (s : CAState) (o : CAOp) :
    (s.applyOp o).max_reserve = s.max_reserve := by
  cases o with
  | alloc =>
    simp only [applyOp, allocate]
    rcases h : s.cache.getLast? with _ | p <;> simp
  | rel p =>
    simp only [applyOp, release]
    split <;> simp

lemma CAState.applyOp_cache_length (s : CAState) (o : CAOp) :
    (s.applyOp o).cache.length ≤ max s.cache.length s.max_reserve := by
  cases o with
  | alloc =>
    simp only [applyOp, allocate]
    rcases h : s.cache.getLast? with _ | p
    · simpa using Or.inl (le_refl _)
    · simp only []
      exact le_max_of_le_left (by simpa using List.length_dropLast_le s.cache)
  | rel p =>
    simp only [applyOp, release]
    split
    · exact le_max_left _ _
    · rename_i h
      simp only [List.length_append, List.length_singleton]
      omega

lemma CAState.run_cache_length (s : CAState) (ops : List CAOp) :
    (s.run ops).cache.length ≤ max s.cache.length s.max_reserve := by
  induction ops generalizing s with
  | nil => simpa [run] using le_max_left _ _
  | cons o ops ih =>
    have h1 := s.applyOp_cache_length o
    have h2 := ih (s.applyOp o)
    have hmr := s.applyOp_max_reserve o
    simp only [run, List.foldl_cons] at *
    calc ((s.applyOp o).run ops).cache.length
        ≤ max (s.applyOp o).cache.length (s.applyOp o).max_reserve := h2
      _ ≤ max (max s.cache.length s.max_reserve) s.max_reserve := by
          rw [hmr]; exact max_le_max_right _ h1
      _ = max s.cache.length s.max_reserve := by rw [max_assoc, max_self]

/-- Side-effect summary of one `operator()` call: the destructor always runs
first, then the block is either stored in the idle set or physically freed. -/
inductive CAEvent where
  | dtor : ℕ → CAEvent
  | store : ℕ → CAEvent
  | free : ℕ → CAEvent
  deriving DecidableEq

/-- Event transcription of `CachingAllocator::operator()(T *ptr)`:
`ptr->~T()`, then `delete ptr` when `cache.size() >= max_reserve`,
otherwise `cache.emplace_back(ptr)`. -/
def CAState.releaseEvents (s : CAState) (p : ℕ) : List CAEvent :=
  if s.max_reserve ≤ s.cache.length then [.dtor p, .free p]
  else [.dtor p, .store p]

/-- C9 (amended): the idle-set size of a `CachingAllocator` constructed with
arguments `(initial_reserve, max_reserve)` never exceeds
`max initial_reserve max_reserve` across any sequence of acquires and
releases (the constructor itself can exceed `max_reserve`); and a release
always runs the occupant's destructor first and then stores the block in
the idle set exactly when the idle set is below `max_reserve`, freeing it
otherwise. -/
theorem pool_idle_set_bounded (ir mr : ℕ) (ops : List CAOp) :
    ((CAState.mkCA ir mr).run ops).cache.length ≤ max ir mr ∧
    (∀ (s : CAState) (p : ℕ),
      s.releaseEvents p =
        [CAEvent.dtor p,
         if s.max_reserve ≤ s.cache.length then CAEvent.free p
         else CAEvent.store p] ∧
      (s.release p).2 = decide (s.cache.length < s.max_reserve) ∧
      (s.release p).1.cache =
        (if s.max_reserve ≤ s.cache.length then s.cache else s.cache ++ [p])) := by
  constructor
  · have := (CAState.mkCA ir mr).run_cache_length ops
    simpa [CAState.mkCA] using this
  · intro s p
    refine ⟨?_, ?_, ?_⟩
    · simp only [CAState.releaseEvents]
      split <;> simp
    · simp only [CAState.release]
      split <;> rename_i h <;> simp <;> omega
    · simp only [CAState.release]
      split <;> simp

/-- C9 counterexample: constructing the pool with `initial_reserve = 5` and
`max_reserve = 2` leaves 5 blocks in the idle set, exceeding the
construction-time maximum retained count 2 before any operation runs. -/
theorem pool_idle_set_bounded_cex :
    ((CAState.mkCA 5 2).run []).max_reserve = 2 ∧
    ((CAState.mkCA 5 2).run []).cache.length = 5 ∧
    ¬ ((CAState.mkCA 5 2).run []).cache.length ≤ ((CAState.mkCA 5 2).run []).max_reserve := by
  decide

/-! ## RingBuffer: `CircularBuffer<T>` (CircularBuffer.h, rule-of-five variant)

`data` models the backing store: one `Option α` per physical slot (`none` =
raw memory with no live object). The stored `capacity_` always equals the
backing store's slot count, so capacity is modelled as `data.length`. -/

structure CBState (α : Type) where
  data : List (Option α)
  begin_pos : ℕ
  end_pos : ℕ
  size_ : ℕ
  deriving DecidableEq

namespace CBState

variable {α : Type}

/-- `static constexpr size_t min_cap{8}` — the minimum capacity floor. -/
def min_cap : ℕ := 8

def capacity (s : CBState α) : ℕ := s.data.length

/-- Physical slot of logical index `i`: `(begin_pos + i) % capacity_`. -/
def slotIdx (s : CBState α) (i : ℕ) : ℕ := (s.begin_pos + i) % s.capacity

/-- Contents of the physical slot holding logical index `i`. -/
def slot (s : CBState α) (i : ℕ) : Option α := s.data.getD (s.slotIdx i) none

/-- `explicit CircularBuffer(const size_t _cap)`: `_cap` slots of raw
storage, `begin_pos = end_pos = size_ = 0`. -/
def mkCB (cap : ℕ) : CBState α := ⟨List.replicate cap none, 0, 0, 0⟩

/-- The default-constructed buffer (`_cap = min_cap`). -/
def init : CBState α := mkCB min_cap

/-- `CircularBuffer::resize(new_capacity)`: allocate a fresh backing store of
`new_capacity` raw slots, move-construct live element `i` from wrapped
physical slot `(begin_pos + i) % capacity_` into new slot `i` for
`i = 0..size_-1`, install the new store, set `capacity_ = new_capacity`,
`begin_pos = 0`, `end_pos = size_`.  The old store is discarded when
`data_storage` is overwritten; no destructor runs on the moved-from
elements. -/
def resize (s : CBState α) (new_capacity : ℕ) : CBState α :=
  { data := (List.range new_capacity).map
      (fun i => if i < s.size_ then s.data.getD ((s.begin_pos + i) % s.capacity) none else none)
    begin_pos := 0
    end_pos := s.size_
    size_ := s.size_ }

/-- `emplace_back_impl`: construct at `end_pos` and advance it, resizing up
(`max(capacity_*2, min_cap)`) first when full (in the resized buffer the
new element lands at slot `end_pos = size_` and `end_pos` is advanced
without wrapping). -/
def emplaceBack (s : CBState α) (v : α) : CBState α :=
  if s.size_ < s.capacity then
    { s with data := s.data.set s.end_pos (some v)
             end_pos := (s.end_pos + 1) % s.capacity
             size_ := s.size_ + 1 }
  else
    let r := s.resize (max (s.capacity * 2) min_cap)
    { r with data := r.data.set r.end_pos (some v)
             end_pos := r.end_pos + 1
             size_ := r.size_ + 1 }

/-- `emplace_front_impl`: step `begin_pos` back (wrapping) and construct
there, resizing up first when full (then `begin_pos = capacity_ - 1` in the
new, larger buffer). -/
def emplaceFront (s : CBState α) (v : α) : CBState α :=
  if s.size_ < s.capacity then
    let b := if s.begin_pos = 0 then s.capacity - 1 else s.begin_pos - 1
    { s with data := s.data.set b (some v)
             begin_pos := b
             size_ := s.size_ + 1 }
  else
    let r := s.resize (max (s.capacity * 2) min_cap)
    let b := r.capacity - 1
    { r with data := r.data.set b (some v)
             begin_pos := b
             size_ := r.size_ + 1 }

/-- `pop_back`: asserts `size_ > 0`; steps `end_pos` back (wrapping), moves
the value out, runs its destructor (slot becomes raw), decrements `size_`,
then shrinks (`resize(max(capacity_/2, min_cap))`) when
`size_ < capacity_/4 && capacity_ > min_cap`.  `none` models the assertion
failing or the popped slot holding no live object. -/
def popBack (s : CBState α) : Option (α × CBState α) :=
  if s.size_ = 0 then none
  else
    let e := if s.end_pos = 0 then s.capacity - 1 else s.end_pos - 1
    match s.data.getD e none with
    | none => none
    | some v =>
      let s1 : CBState α :=
        { s with data := s.data.set e none, end_pos := e, size_ := s.size_ - 1 }
      if s1.size_ < s1.capacity / 4 ∧ min_cap < s1.capacity then
        some (v, s1.resize (max (s1.capacity / 2) min_cap))
      else some (v, s1)

/-- `pop_front`: asserts `size_ > 0`; moves the value out of `begin_pos`,
destroys it, advances `begin_pos` (wrapping), decrements `size_`, then
shrinks exactly as `pop_back` does. -/
def popFront (s : CBState α) : Option (α × CBState α) :=
  if s.size_ = 0 then none
  else
    match s.data.getD s.begin_pos none with
    | none => none
    | some v =>
      let s1 : CBState α :=
        { s with data := s.data.set s.begin_pos none
                 begin_pos := (s.begin_pos + 1) % s.capacity
                 size_ := s.size_ - 1 }
      if s1.size_ < s1.capacity / 4 ∧ min_cap < s1.capacity then
        some (v, s1.resize (max (s1.capacity / 2) min_cap))
      else some (v, s1)

/-- `operator[](index)`: asserts `index < size_`, returns
`data[(begin_pos + index) % capacity_]`. -/
def get (s : CBState α) (i : ℕ) : Option α :=
  if i < s.size_ then s.slot i else none

/-- Well-formedness of a live buffer: positive capacity, `size_ ≤ capacity`,
`begin_pos` in range, `end_pos` one past the last live slot (wrapped), and a
live object present in every occupied slot. -/
def wf (s : CBState α) : Prop :=
  0 < s.capacity ∧ s.size_ ≤ s.capacity ∧ s.begin_pos < s.capacity ∧
  s.end_pos = (s.begin_pos + s.size_) % s.capacity ∧
  ∀ i < s.size_, (s.slot i).isSome

instance wfDecidable (s : CBState α) : Decidable s.wf := by
  unfold wf
  infer_instance

/-- `s` holds exactly the logical sequence `l`. -/
def models (s : CBState α) (l : List α) : Prop :=
  s.size_ = l.length ∧ ∀ i, s.get i = l.get? i

end CBState

/-- Memory-lifecycle events of one `CircularBuffer::resize` call. -/
inductive CBEvent where
  | allocStore : ℕ → CBEvent
  | moveConstruct : ℕ → ℕ → CBEvent
  | destroyOld : ℕ → CBEvent
  | freeStore : CBEvent
  deriving DecidableEq

def CBEvent.isDestroy : CBEvent → Bool
  | .destroyOld _ => true
  | _ => false

/-- Event transcription of the body of `CircularBuffer::resize`: allocate
the new store, move-construct live element `i` from wrapped slot
`(begin_pos + i) % capacity_` into new slot `i` in order `i = 0..size_-1`,
then discard the old backing store.  No destructor is invoked on the
moved-from elements. -/
def CBState.resizeTrace (s : CBState α) (ncap : ℕ) : List CBEvent :=
  [CBEvent.allocStore ncap]
    ++ (List.range s.size_).map
        (fun i => CBEvent.moveConstruct ((s.begin_pos + i) % s.capacity) i)
    ++ [CBEvent.freeStore]

/-- Modelled from the spec: the grow/shrink algorithm of §4.2 — allocate,
move-construct each live element in order, *destroy the old elements in
their old slots*, then discard the old backing store. -/
def specResizeTrace (s : CBState α) (ncap : ℕ) : List CBEvent :=
  [CBEvent.allocStore ncap]
    ++ (List.range s.size_).map
        (fun i => CBEvent.moveConstruct ((s.begin_pos + i) % s.capacity) i)
    ++ (List.range s.size_).map
        (fun i => CBEvent.destroyOld ((s.begin_pos + i) % s.capacity))
    ++ [CBEvent.freeStore]

namespace CBState

variable {α : Type}

lemma slotIdx_lt (s : CBState α) (hc : 0 < s.capacity) (i : ℕ) :
    s.slotIdx i < s.capacity := Nat.mod_lt _ hc

lemma slotIdx_inj (s : CBState α) {i j : ℕ} (hi : i < s.capacity)
    (hj : j < s.capacity) (hij : s.slotIdx i = s.slotIdx j) : i = j := by
  have h1 : Nat.ModEq s.capacity (s.begin_pos + i) (s.begin_pos + j) := hij
  have h2 : Nat.ModEq s.capacity i j := h1.add_left_cancel' s.begin_pos
  have h3 : i % s.capacity = j % s.capacity := h2
  rwa [Nat.mod_eq_of_lt hi, Nat.mod_eq_of_lt hj] at h3

/-- The `x == 0 ? capacity - 1 : x - 1` wrapping decrement applied to
`(b + n) % c` steps back to `(b + (n - 1)) % c`. -/
lemma pred_wrap {c b n : ℕ} (hc : 0 < c) (hn : 0 < n) :
    (if (b + n) % c = 0 then c - 1 else (b + n) % c - 1) = (b + (n - 1)) % c := by
  obtain ⟨m, rfl⟩ : ∃ m, n = m + 1 := ⟨n - 1, by omega⟩
  simp only [Nat.add_sub_cancel]
  have key : (b + (m + 1)) % c = ((b + m) % c + 1) % c := by
    rw [← Nat.add_assoc, Nat.mod_add_mod]
  have hu : (b + m) % c < c := Nat.mod_lt _ hc
  rcases Nat.lt_or_ge ((b + m) % c + 1) c with hlt | hge
  · have h1 : (b + (m + 1)) % c = (b + m) % c + 1 := by rw [key, Nat.mod_eq_of_lt hlt]
    rw [h1, if_neg (by omega)]
    omega
  · have heq : (b + m) % c + 1 = c := by omega
    have h1 : (b + (m + 1)) % c = 0 := by rw [key, heq, Nat.mod_self]
    rw [h1, if_pos rfl]
    omega

lemma get_of_lt (s : CBState α) {i : ℕ} (h : i < s.size_) : s.get i = s.slot i := by
  simp [get, h]

lemma get_of_ge (s : CBState α) {i : ℕ} (h : s.size_ ≤ i) : s.get i = none := by
  simp [get, Nat.not_lt.mpr h]

lemma resize_spec (s : CBState α) (h : s.wf) {ncap : ℕ} (hlt : s.size_ < ncap) :
    (s.resize ncap).wf ∧ (s.resize ncap).capacity = ncap ∧
    (s.resize ncap).size_ = s.size_ ∧ (s.resize ncap).begin_pos = 0 ∧
    (∀ i, (s.resize ncap).get i = s.get i) := by
  obtain ⟨hc, hsz, hb, he, hlive⟩ := h
  have hcap : (s.resize ncap).capacity = ncap := by
    simp [resize, capacity]
  have hsize : (s.resize ncap).size_ = s.size_ := rfl
  have hbeg : (s.resize ncap).begin_pos = 0 := rfl
  have hslot : ∀ i, i < s.size_ → (s.resize ncap).slot i = s.slot i := by
    intro i hi
    have hin : i < ncap := lt_trans hi hlt
    have hidx : (s.resize ncap).slotIdx i = i := by
      simp only [slotIdx, hcap, hbeg, Nat.zero_add]
      exact Nat.mod_eq_of_lt hin
    have hdata : (s.resize ncap).data.getD i none = s.data.getD (s.slotIdx i) none := by
      simp only [resize]
      rw [List.getD_eq_getD_get?, List.get?_map, List.get?_range hin]
      simp [hi, slotIdx]
    simp only [slot]
    rw [hidx, hdata]
  have hget : ∀ i, (s.resize ncap).get i = s.get i := by
    intro i
    rcases Nat.lt_or_ge i s.size_ with hi | hi
    · rw [get_of_lt _ (by rw [hsize]; exact hi), get_of_lt _ hi, hslot i hi]
    · rw [get_of_ge _ (by rw [hsize]; exact hi), get_of_ge _ hi]
  refine ⟨⟨?_, ?_, ?_, ?_, ?_⟩, hcap, rfl, hbeg, hget⟩
  · rw [hcap]; omega
  · rw [hsize, hcap]; exact Nat.le_of_lt hlt
  · rw [hbeg, hcap]; omega
  · rw [hsize, hbeg, hcap]
    show s.size_ = (0 + s.size_) % ncap
    rw [Nat.zero_add, Nat.mod_eq_of_lt hlt]
  · intro i hi
    rw [hsize] at hi
    rw [hslot i hi]
    exact hlive i hi

lemma getD_set_self {β : Type} {l : List β} {n : ℕ} (d : β) (h : n < l.length) (a : β) :
    (l.set n a).getD n d = a := by
  rw [List.getD_eq_getD_get?, List.get?_set_eq_of_lt _ h]
  rfl

lemma getD_set_ne {β : Type} {l : List β} {m n : ℕ} (d : β) (h : m ≠ n) (a : β) :
    (l.set m a).getD n d = l.getD n d := by
  rw [List.getD_eq_getD_get?, List.get?_set_ne _ _ h, ← List.getD_eq_getD_get?]

lemma emplaceBack_spec (s : CBState α) (h : s.wf) (v : α) :
    (s.emplaceBack v).wf ∧ (s.emplaceBack v).size_ = s.size_ + 1 ∧
    (s.emplaceBack v).capacity =
      (if s.size_ < s.capacity then s.capacity else max (s.capacity * 2) min_cap) ∧
    (∀ i, (s.emplaceBack v).get i =
      if i < s.size_ then s.get i else if i = s.size_ then some v else none) := by
  obtain ⟨hc, hsz, hb, he, hlive⟩ := h
  rcases Nat.lt_or_ge s.size_ s.capacity with hfull | hge
  · -- fast path: room available, construct at end_pos
    have hdef : s.emplaceBack v =
        { s with data := s.data.set s.end_pos (some v)
                 end_pos := (s.end_pos + 1) % s.capacity
                 size_ := s.size_ + 1 } := by
      simp [emplaceBack, hfull]
    set s' : CBState α :=
      { s with data := s.data.set s.end_pos (some v)
               end_pos := (s.end_pos + 1) % s.capacity
               size_ := s.size_ + 1 } with hs'
    have hcap' : s'.capacity = s.capacity := by
      simp [hs', capacity, List.length_set]
    have hePos : s.end_pos = s.slotIdx s.size_ := he
    have hidx : ∀ i, s'.slotIdx i = s.slotIdx i := by
      intro i; simp [slotIdx, hs', capacity, List.length_set]
    have hslot_new : s'.slot s.size_ = some v := by
      simp only [slot, hidx]
      rw [← hePos]
      exact getD_set_self _ (by rw [hePos]; exact s.slotIdx_lt hc _) _
    have hslot_old : ∀ i, i < s.size_ → s'.slot i = s.slot i := by
      intro i hi
      simp only [slot, hidx]
      refine getD_set_ne _ ?_ _
      rw [hePos]
      intro hcontra
      have := s.slotIdx_inj hfull (lt_of_lt_of_le hi hsz) hcontra
      omega
    rw [hdef]
    refine ⟨⟨?_, ?_, ?_, ?_, ?_⟩, rfl, ?_, ?_⟩
    · rw [hcap']; exact hc
    · show s.size_ + 1 ≤ s'.capacity
      rw [hcap']; omega
    · show s.begin_pos < s'.capacity
      rw [hcap']; exact hb
    · show (s.end_pos + 1) % s.capacity = (s.begin_pos + (s.size_ + 1)) % s'.capacity
      rw [hcap', he, Nat.mod_add_mod, ← Nat.add_assoc]
    · intro i hi
      have hi' : i < s.size_ + 1 := hi
      rcases Nat.lt_or_ge i s.size_ with hlt | hgei
      · rw [hslot_old i hlt]; exact hlive i hlt
      · have : i = s.size_ := by omega
        rw [this, hslot_new]; rfl
    · rw [hcap', if_pos hfull]
    · intro i
      rcases Nat.lt_or_ge i s.size_ with hlt | hgei
      · rw [if_pos hlt]
        have h1 : s'.get i = s'.slot i := s'.get_of_lt (show i < s.size_ + 1 by omega)
        rw [h1, hslot_old i hlt, ← s.get_of_lt hlt]
      · rcases Nat.eq_or_lt_of_le hgei with heq | hgt
        · rw [if_neg (by omega), if_pos heq.symm]
          have h1 : s'.get i = s'.slot i := s'.get_of_lt (show i < s.size_ + 1 by omega)
          rw [h1, ← heq]
          exact hslot_new
        · rw [if_neg (by omega), if_neg (by omega)]
          exact s'.get_of_ge (show s.size_ + 1 ≤ i by omega)
  · -- full: resize up, then construct at end_pos = size_ in the new buffer
    have hEq : s.size_ = s.capacity := le_antisymm hsz hge
    have hncap : s.size_ < max (s.capacity * 2) min_cap := by
      rcases max_choice (s.capacity * 2) min_cap with hm | hm <;>
        rw [hm] <;> simp [min_cap] at * <;> omega
    obtain ⟨hwr, hrcap, hrsize, hrbeg, hrget⟩ :=
      s.resize_spec ⟨hc, hsz, hb, he, hlive⟩ hncap
    set r := s.resize (max (s.capacity * 2) min_cap) with hr
    have hrend : r.end_pos = s.size_ := rfl
    have hsucc : s.size_ + 1 < max (s.capacity * 2) min_cap := by
      rcases max_choice (s.capacity * 2) min_cap with hm | hm <;>
        rw [hm] <;> simp [min_cap] at * <;> omega
    have hdef : s.emplaceBack v =
        { r with data := r.data.set r.end_pos (some v)
                 end_pos := r.end_pos + 1
                 size_ := r.size_ + 1 } := by
      simp only [emplaceBack, if_neg (Nat.not_lt.mpr hge)]
    set s' : CBState α :=
      { r with data := r.data.set r.end_pos (some v)
               end_pos := r.end_pos + 1
               size_ := r.size_ + 1 } with hs'
    have hcap' : s'.capacity = max (s.capacity * 2) min_cap := by
      show (r.data.set r.end_pos (some v)).length = _
      rw [List.length_set, ← capacity, hrcap]
    have hidx : ∀ i, i < s.size_ + 1 → s'.slotIdx i = i := by
      intro i hi
      simp only [slotIdx, hcap', hrbeg, Nat.zero_add]
      refine Nat.mod_eq_of_lt ?_
      omega
    have hrlen : r.end_pos < r.data.length := by
      rw [hrend, ← capacity, hrcap]; omega
    have hslot_new : s'.slot s.size_ = some v := by
      simp only [slot, hidx s.size_ (by omega)]
      show (r.data.set r.end_pos (some v)).getD s.size_ none = some v
      rw [← hrend]
      exact getD_set_self _ hrlen _
    have hslot_old : ∀ i, i < s.size_ → s'.slot i = r.slot i := by
      intro i hi
      simp only [slot, hidx i (by omega)]
      show (r.data.set r.end_pos (some v)).getD i none = r.data.getD (r.slotIdx i) none
      have hridx : r.slotIdx i = i := by
        simp only [slotIdx, hrbeg, hrcap, Nat.zero_add]
        refine Nat.mod_eq_of_lt ?_
        omega
      rw [hridx]
      exact getD_set_ne _ (by rw [hrend]; omega) _
    rw [hdef]
    obtain ⟨hrc, hrs, hrb, hre, hrlive⟩ := hwr
    refine ⟨⟨?_, ?_, ?_, ?_, ?_⟩, ?_, ?_, ?_⟩
    · rw [hcap']; omega
    · show r.size_ + 1 ≤ s'.capacity
      rw [hcap', hrsize]; omega
    · show r.begin_pos < s'.capacity
      rw [hcap', hrbeg]; omega
    · show r.end_pos + 1 = (r.begin_pos + (r.size_ + 1)) % s'.capacity
      rw [hcap', hrbeg, hrend, hrsize, Nat.zero_add]
      exact (Nat.mod_eq_of_lt hsucc).symm
    · intro i hi
      have hi' : i < r.size_ + 1 := hi
      rw [hrsize] at hi'
      rcases Nat.lt_or_ge i s.size_ with hlt | hgei
      · rw [hslot_old i hlt]
        have := hrlive i (by rw [hrsize]; exact hlt)
        exact this
      · have : i = s.size_ := by omega
        rw [this, hslot_new]; rfl
    · show r.size_ + 1 = s.size_ + 1
      rw [hrsize]
    · rw [hcap', if_neg (Nat.not_lt.mpr hge)]
    · intro i
      rcases Nat.lt_or_ge i s.size_ with hlt | hgei
      · rw [if_pos hlt]
        have h1 : s'.get i = s'.slot i :=
          s'.get_of_lt (show i < r.size_ + 1 by rw [hrsize]; omega)
        have h2 : r.get i = r.slot i := r.get_of_lt (by rw [hrsize]; exact hlt)
        rw [h1, hslot_old i hlt, ← h2, hrget]
      · rcases Nat.eq_or_lt_of_le hgei with heq | hgt
        · rw [if_neg (by omega), if_pos heq.symm]
          have h1 : s'.get i = s'.slot i :=
            s'.get_of_lt (show i < r.size_ + 1 by rw [hrsize]; omega)
          rw [h1, ← heq]
          exact hslot_new
        · rw [if_neg (by omega), if_neg (by omega)]
          exact s'.get_of_ge (show r.size_ + 1 ≤ i by rw [hrsize]; omega)

lemma popBack_spec (s : CBState α) (h : s.wf) (hs : 0 < s.size_) :
    ∃ v s', s.popBack = some (v, s') ∧ s'.wf ∧ s'.size_ = s.size_ - 1 ∧
      s.get (s.size_ - 1) = some v ∧
      s'.capacity = (if s.size_ - 1 < s.capacity / 4 ∧ min_cap < s.capacity
                     then max (s.capacity / 2) min_cap else s.capacity) ∧
      (∀ i, s'.get i = if i < s.size_ - 1 then s.get i else none) := by
  obtain ⟨hc, hsz, hb, he, hlive⟩ := h
  have heidx : (if s.end_pos = 0 then s.capacity - 1 else s.end_pos - 1)
      = s.slotIdx (s.size_ - 1) := by
    rw [he]
    exact pred_wrap hc hs
  have hl : (s.slot (s.size_ - 1)).isSome := hlive _ (by omega)
  obtain ⟨v, hv⟩ : ∃ v, s.slot (s.size_ - 1) = some v := by
    cases hvv : s.slot (s.size_ - 1) with
    | none => rw [hvv] at hl; simp at hl
    | some v => exact ⟨v, rfl⟩
  have hv' : s.data.getD (s.slotIdx (s.size_ - 1)) none = some v := hv
  set s1 : CBState α :=
    { s with data := s.data.set (s.slotIdx (s.size_ - 1)) none
             end_pos := s.slotIdx (s.size_ - 1)
             size_ := s.size_ - 1 } with hs1
  have hrun : s.popBack =
      (if s1.size_ < s1.capacity / 4 ∧ min_cap < s1.capacity
       then some (v, s1.resize (max (s1.capacity / 2) min_cap))
       else some (v, s1)) := by
    simp only [popBack, if_neg (by omega : ¬ s.size_ = 0), heidx, hv']
  have hs1cap : s1.capacity = s.capacity := by
    simp [hs1, capacity, List.length_set]
  have hs1size : s1.size_ = s.size_ - 1 := rfl
  have hs1idx : ∀ i, s1.slotIdx i = s.slotIdx i := by
    intro i; simp [slotIdx, hs1, capacity, List.length_set]
  have hs1slot : ∀ i, i < s.size_ - 1 → s1.slot i = s.slot i := by
    intro i hi
    simp only [slot, hs1idx]
    refine getD_set_ne _ ?_ _
    intro hcontra
    have := s.slotIdx_inj (by omega) (by omega) hcontra
    omega
  have hw1 : s1.wf := by
    refine ⟨?_, ?_, ?_, ?_, ?_⟩
    · rw [hs1cap]; exact hc
    · rw [hs1size, hs1cap]; omega
    · show s.begin_pos < s1.capacity
      rw [hs1cap]; exact hb
    · show s.slotIdx (s.size_ - 1) = (s.begin_pos + s1.size_) % s1.capacity
      rw [hs1size, hs1cap]; rfl
    · intro i hi
      rw [hs1size] at hi
      rw [hs1slot i hi]
      exact hlive i (by omega)
  have hget1 : ∀ i, s1.get i = if i < s.size_ - 1 then s.get i else none := by
    intro i
    rcases Nat.lt_or_ge i (s.size_ - 1) with hlt | hgei
    · rw [if_pos hlt, s1.get_of_lt (by rw [hs1size]; exact hlt), hs1slot i hlt,
        ← s.get_of_lt (by omega)]
    · rw [if_neg (by omega)]
      exact s1.get_of_ge (by rw [hs1size]; omega)
  have hvget : s.get (s.size_ - 1) = some v := by
    rw [s.get_of_lt (by omega)]; exact hv
  rcases Classical.em (s1.size_ < s1.capacity / 4 ∧ min_cap < s1.capacity) with hcond | hcond
  · -- shrink path
    have hlt2 : s1.size_ < max (s1.capacity / 2) min_cap := by
      have h24 : s1.capacity / 4 ≤ s1.capacity / 2 :=
        Nat.div_le_div_left (by norm_num) (by norm_num)
      have := le_max_left (s1.capacity / 2) min_cap
      omega
    obtain ⟨hwr, hrcap, hrsize, hrbeg, hrget⟩ := s1.resize_spec hw1 hlt2
    refine ⟨v, _, ?_, hwr, ?_, hvget, ?_, ?_⟩
    · rw [hrun, if_pos hcond]
    · rw [hrsize, hs1size]
    · rw [hrcap, hs1cap]
      rw [hs1size, hs1cap] at hcond
      rw [if_pos hcond]
    · intro i
      rw [hrget, hget1]
  · -- no shrink
    refine ⟨v, s1, ?_, hw1, hs1size, hvget, ?_, hget1⟩
    · rw [hrun, if_neg hcond]
    · rw [hs1cap]
      rw [hs1size, hs1cap] at hcond
      rw [if_neg hcond]

lemma popFront_spec (s : CBState α) (h : s.wf) (hs : 0 < s.size_) :
    ∃ v s', s.popFront = some (v, s') ∧ s'.wf ∧ s'.size_ = s.size_ - 1 ∧
      s.get 0 = some v ∧
      s'.capacity = (if s.size_ - 1 < s.capacity / 4 ∧ min_cap < s.capacity
                     then max (s.capacity / 2) min_cap else s.capacity) ∧
      (∀ i, s'.get i = if i < s.size_ - 1 then s.get (i + 1) else none) := by
  obtain ⟨hc, hsz, hb, he, hlive⟩ := h
  have hbidx : s.begin_pos = s.slotIdx 0 := by
    simp [slotIdx, Nat.mod_eq_of_lt hb]
  have hl : (s.slot 0).isSome := hlive _ (by omega)
  obtain ⟨v, hv⟩ : ∃ v, s.slot 0 = some v := by
    cases hvv : s.slot 0 with
    | none => rw [hvv] at hl; simp at hl
    | some v => exact ⟨v, rfl⟩
  have hv' : s.data.getD s.begin_pos none = some v := by rw [hbidx]; exact hv
  set s1 : CBState α :=
    { s with data := s.data.set s.begin_pos none
             begin_pos := (s.begin_pos + 1) % s.capacity
             size_ := s.size_ - 1 } with hs1
  have hrun : s.popFront =
      (if s1.size_ < s1.capacity / 4 ∧ min_cap < s1.capacity
       then some (v, s1.resize (max (s1.capacity / 2) min_cap))
       else some (v, s1)) := by
    simp only [popFront, if_neg (by omega : ¬ s.size_ = 0), hv']
  have hs1cap : s1.capacity = s.capacity := by
    simp [hs1, capacity, List.length_set]
  have hs1size : s1.size_ = s.size_ - 1 := rfl
  have hs1idx : ∀ i, s1.slotIdx i = s.slotIdx (i + 1) := by
    intro i
    simp only [slotIdx, hs1, capacity, List.length_set]
    show ((s.begin_pos + 1) % s.data.length + i) % s.data.length
        = (s.begin_pos + (i + 1)) % s.data.length
    rw [Nat.mod_add_mod]
    ring_nf
  have hs1slot : ∀ i, i < s.size_ - 1 → s1.slot i = s.slot (i + 1) := by
    intro i hi
    simp only [slot, hs1idx]
    refine getD_set_ne _ ?_ _
    rw [hbidx]
    intro hcontra
    have := s.slotIdx_inj (by omega) (by omega) hcontra
    omega
  have hw1 : s1.wf := by
    refine ⟨?_, ?_, ?_, ?_, ?_⟩
    · rw [hs1cap]; exact hc
    · rw [hs1size, hs1cap]; omega
    · show (s.begin_pos + 1) % s.capacity < s1.capacity
      rw [hs1cap]; exact Nat.mod_lt _ hc
    · show s.end_pos = ((s.begin_pos + 1) % s.capacity + s1.size_) % s1.capacity
      rw [hs1size, hs1cap, Nat.mod_add_mod, he]
      congr 1
      omega
    · intro i hi
      rw [hs1size] at hi
      rw [hs1slot i hi]
      exact hlive (i + 1) (by omega)
  have hget1 : ∀ i, s1.get i = if i < s.size_ - 1 then s.get (i + 1) else none := by
    intro i
    rcases Nat.lt_or_ge i (s.size_ - 1) with hlt | hgei
    · rw [if_pos hlt, s1.get_of_lt (by rw [hs1size]; exact hlt), hs1slot i hlt,
        ← s.get_of_lt (by omega)]
    · rw [if_neg (by omega)]
      exact s1.get_of_ge (by rw [hs1size]; omega)
  have hvget : s.get 0 = some v := by
    rw [s.get_of_lt (by omega)]; exact hv
  rcases Classical.em (s1.size_ < s1.capacity / 4 ∧ min_cap < s1.capacity) with hcond | hcond
  · have hlt2 : s1.size_ < max (s1.capacity / 2) min_cap := by
      have h24 : s1.capacity / 4 ≤ s1.capacity / 2 :=
        Nat.div_le_div_left (by norm_num) (by norm_num)
      have := le_max_left (s1.capacity / 2) min_cap
      omega
    obtain ⟨hwr, hrcap, hrsize, hrbeg, hrget⟩ := s1.resize_spec hw1 hlt2
    refine ⟨v, _, ?_, hwr, ?_, hvget, ?_, ?_⟩
    · rw [hrun, if_pos hcond]
    · rw [hrsize, hs1size]
    · rw [hrcap, hs1cap]
      rw [hs1size, hs1cap] at hcond
      rw [if_pos hcond]
    · intro i
      rw [hrget, hget1]
  · refine ⟨v, s1, ?_, hw1, hs1size, hvget, ?_, hget1⟩
    · rw [hrun, if_neg hcond]
    · rw [hs1cap]
      rw [hs1size, hs1cap] at hcond
      rw [if_neg hcond]

end CBState

/-- C2 (amended): every `CircularBuffer` grow or shrink (`resize`) allocates
a new backing store of the new capacity, move-constructs live element `i`
from its wrapped physical slot `(begin_pos + i) % capacity_` into new slot
`i` in order `i = 0..size_-1`, resets the logical start offset to `0`
(with `end_pos = size_`), and then discards the old backing store
*without* running the destructors of the moved-from elements: the resize
event trace contains no destroy event. -/
theorem ringbuffer_resize_repacks (s : CBState α) (h : s.wf) (ncap : ℕ)
    (hlt : s.size_ < ncap) :
    (s.resize ncap).capacity = ncap ∧
    (s.resize ncap).begin_pos = 0 ∧
    (s.resize ncap).end_pos = s.size_ ∧
    (∀ i < s.size_, (s.resize ncap).data.getD i none
        = s.data.getD ((s.begin_pos + i) % s.capacity) none) ∧
    (∀ i, s.size_ ≤ i → (s.resize ncap).data.getD i none = none) ∧
    (∀ i, (s.resize ncap).get i = s.get i) ∧
    (s.resizeTrace ncap).filter CBEvent.isDestroy = [] := by
  obtain ⟨hwr, hrcap, hrsize, hrbeg, hrget⟩ := s.resize_spec h hlt
  refine ⟨hrcap, hrbeg, rfl, ?_, ?_, hrget, ?_⟩
  · intro i hi
    have hin : i < ncap := lt_trans hi hlt
    show ((List.range ncap).map _).getD i none = _
    rw [List.getD_eq_getD_get?, List.get?_map, List.get?_range hin]
    simp [hi]
  · intro i hige
    rcases Nat.lt_or_ge i ncap with hin | hout
    · show ((List.range ncap).map _).getD i none = none
      rw [List.getD_eq_getD_get?, List.get?_map, List.get?_range hin]
      simp [Nat.not_lt.mpr hige]
    · show ((List.range ncap).map _).getD i none = none
      rw [List.getD_eq_getD_get?, List.get?_map, List.get?_eq_none.mpr (by simpa using hout)]
      rfl
  · rw [List.filter_eq_nil]
    intro e he
    simp only [CBState.resizeTrace, List.mem_append, List.mem_singleton,
      List.mem_map, List.mem_range] at he
    rcases he with (h1 | ⟨j, _, rfl⟩) | h2
    · subst h1; simp [CBEvent.isDestroy]
    · simp [CBEvent.isDestroy]
    · subst h2; simp [CBEvent.isDestroy]

/-- C2 counterexample: growing the default buffer after eight pushes — the
resize performed by the ninth push — emits no destroy event for the eight
moved-from elements, while the spec's algorithm (`specResizeTrace`) emits
eight. The repository's own lifetime test
(`REQUIRE(TestingTracker::destructed == num_elements)`) passes only
because the destructors are skipped. -/
theorem ringbuffer_resize_repacks_cex :
    ((((List.range 8).foldl CBState.emplaceBack
        (CBState.init (α := ℕ))).resizeTrace 16).filter CBEvent.isDestroy = []) ∧
    (((specResizeTrace ((List.range 8).foldl CBState.emplaceBack
        (CBState.init (α := ℕ))) 16)).filter CBEvent.isDestroy).length = 8 := by
  decide

/-- C2 witness: a concrete well-formed buffer (three pushes on the default
buffer) resized to capacity 16: the new store holds the elements repacked
from slot 0, and the resize emits no destroy event. -/
theorem ringbuffer_resize_repacks_witness :
    (((List.range 3).foldl CBState.emplaceBack (CBState.init (α := ℕ))).resize 16).capacity = 16 ∧
    ((((List.range 3).foldl CBState.emplaceBack (CBState.init (α := ℕ))).resize 16).begin_pos = 0) ∧
    ((((List.range 3).foldl CBState.emplaceBack
        (CBState.init (α := ℕ))).resizeTrace 16).filter CBEvent.isDestroy = []) := by
  have h := ringbuffer_resize_repacks
    ((List.range 3).foldl CBState.emplaceBack (CBState.init (α := ℕ)))
    (by decide) 16 (by decide)
  exact ⟨h.1, h.2.1, h.2.2.2.2.2.2⟩

/-- One pop call on a `CircularBuffer`: `pop_front()` or `pop_back()`. -/
inductive CBPop where
  | front : CBPop
  | back : CBPop
  deriving DecidableEq

namespace CBState

/-- Push a whole list through `push_back`. -/
def pushAll (s : CBState α) (vs : List α) : CBState α :=
  vs.foldl CBState.emplaceBack s

def applyPop (s : CBState α) : CBPop → Option (CBState α)
  | .front => s.popFront.map Prod.snd
  | .back => s.popBack.map Prod.snd

/-- Replay a sequence of pops; `none` as soon as one fails. -/
def popRun (s : CBState α) : List CBPop → Option (CBState α)
  | [] => some s
  | o :: t => (s.applyPop o).bind fun s' => s'.popRun t

/-- Reachable capacities starting from the default buffer: powers of two at
or above the floor `min_cap = 8`. -/
def capPow2 (s : CBState α) : Prop := ∃ k, 3 ≤ k ∧ s.capacity = 2 ^ k

end CBState

/-- The logical contents remaining after a pop sequence. -/
def popModel (l : List α) : List CBPop → List α
  | [] => l
  | CBPop.front :: t => popModel l.tail t
  | CBPop.back :: t => popModel l.dropLast t

namespace CBState

lemma get?_tail (l : List α) (i : ℕ) : l.tail.get? i = l.get? (i + 1) := by
  cases l <;> simp

lemma get?_dropLast (l : List α) {i : ℕ} (hi : i < l.length - 1) :
    l.dropLast.get? i = l.get? i := by
  induction l generalizing i with
  | nil => simp
  | cons a l ih =>
    cases l with
    | nil => simp at hi
    | cons b l =>
      cases i with
      | zero => simp [List.dropLast]
      | succ j =>
        have hj : j < (b :: l).length - 1 := by simp at hi ⊢; omega
        simp only [List.dropLast, List.get?]
        exact ih hj

lemma init_wf : (init : CBState α).wf := by
  refine ⟨?_, ?_, ?_, ?_, ?_⟩ <;>
    simp [init, mkCB, capacity, slot, slotIdx, min_cap]

lemma init_models_nil : (init : CBState α).models [] := by
  refine ⟨rfl, ?_⟩
  intro i
  simp [get, init, mkCB]

lemma models_emplaceBack {s : CBState α} {l : List α} (hw : s.wf)
    (hm : s.models l) (v : α) : (s.emplaceBack v).models (l ++ [v]) := by
  obtain ⟨hlen, hget⟩ := hm
  obtain ⟨_, hsize, _, hgetc⟩ := s.emplaceBack_spec hw v
  constructor
  · rw [hsize, hlen, List.length_append, List.length_singleton]
  · intro i
    rw [hgetc]
    rcases Nat.lt_trichotomy i s.size_ with hlt | heq | hgt
    · rw [if_pos hlt, hget, List.get?_append (by omega : i < l.length)]
    · rw [if_neg (by omega), if_pos heq, heq, hlen]
      exact (List.get?_concat_length l v).symm
    · rw [if_neg (by omega), if_neg (by omega)]
      symm
      rw [List.get?_eq_none]
      rw [List.length_append, List.length_singleton]
      omega

lemma models_shift {s s' : CBState α} {l : List α} (hm : s.models l)
    (hsize : s'.size_ = s.size_ - 1)
    (hget : ∀ i, s'.get i = if i < s.size_ - 1 then s.get (i + 1) else none) :
    s'.models l.tail := by
  obtain ⟨hlen, hgetm⟩ := hm
  constructor
  · rw [hsize, hlen, List.length_tail]
  · intro i
    rw [hget, get?_tail]
    rcases Nat.lt_or_ge i (s.size_ - 1) with hlt | hge
    · rw [if_pos hlt, hgetm]
    · rw [if_neg (by omega)]
      symm
      rw [List.get?_eq_none]
      omega

lemma models_dropLast {s s' : CBState α} {l : List α} (hm : s.models l)
    (hsize : s'.size_ = s.size_ - 1)
    (hget : ∀ i, s'.get i = if i < s.size_ - 1 then s.get i else none) :
    s'.models l.dropLast := by
  obtain ⟨hlen, hgetm⟩ := hm
  constructor
  · rw [hsize, hlen, List.length_dropLast]
  · intro i
    rw [hget]
    rcases Nat.lt_or_ge i (s.size_ - 1) with hlt | hge
    · rw [if_pos hlt, hgetm, get?_dropLast l (show i < l.length - 1 by omega)]
    · rw [if_neg (by omega)]
      symm
      rw [List.get?_eq_none, List.length_dropLast]
      omega

lemma capPow2_grow {c : ℕ} (h : ∃ k, 3 ≤ k ∧ c = 2 ^ k) :
    ∃ k, 3 ≤ k ∧ max (c * 2) min_cap = 2 ^ k := by
  obtain ⟨k, hk, rfl⟩ := h
  refine ⟨k + 1, by omega, ?_⟩
  have h8 : min_cap ≤ 2 ^ k * 2 := by
    have : (8 : ℕ) = 2 ^ 3 := by norm_num
    simp only [min_cap, this]
    calc (2 : ℕ) ^ 3 ≤ 2 ^ k := Nat.pow_le_pow_right (by norm_num) hk
      _ ≤ 2 ^ k * 2 := by omega
  rw [max_eq_left h8, pow_succ]

lemma capPow2_shrink {c : ℕ} (h : ∃ k, 3 ≤ k ∧ c = 2 ^ k) :
    ∃ k, 3 ≤ k ∧ max (c / 2) min_cap = 2 ^ k := by
  obtain ⟨k, hk, rfl⟩ := h
  obtain ⟨m, rfl⟩ : ∃ m, k = m + 1 := ⟨k - 1, by omega⟩
  have hdiv : 2 ^ (m + 1) / 2 = 2 ^ m := by
    rw [pow_succ, Nat.mul_div_cancel _ (by norm_num)]
  rw [hdiv]
  rcases Nat.lt_or_ge m 3 with hm | hm
  · have : m = 2 := by omega
    subst this
    exact ⟨3, le_refl _, by norm_num [min_cap]⟩
  · refine ⟨m, hm, ?_⟩
    have h8 : min_cap ≤ 2 ^ m := by
      have : (8 : ℕ) = 2 ^ 3 := by norm_num
      simp only [min_cap, this]
      exact Nat.pow_le_pow_right (by norm_num) hm
    rw [max_eq_left h8]

lemma pushAll_spec {s : CBState α} {l : List α} (hw : s.wf) (hm : s.models l)
    (hp : s.capPow2) (vs : List α) :
    (s.pushAll vs).wf ∧ (s.pushAll vs).models (l ++ vs) ∧ (s.pushAll vs).capPow2 := by
  induction vs generalizing s l with
  | nil => simpa [pushAll] using ⟨hw, hm, hp⟩
  | cons v vs ih =>
    obtain ⟨hw', _, hcap', _⟩ := s.emplaceBack_spec hw v
    have hm' := models_emplaceBack hw hm v
    have hp' : (s.emplaceBack v).capPow2 := by
      unfold capPow2
      rw [hcap']
      split
      · exact hp
      · exact capPow2_grow hp
    have hres := ih hw' hm' hp'
    have hfold : s.pushAll (v :: vs) = (s.emplaceBack v).pushAll vs := rfl
    rw [hfold, show l ++ v :: vs = (l ++ [v]) ++ vs by simp]
    exact hres

lemma popRun_spec {t : List CBPop} {s s2 : CBState α} {l : List α}
    (hw : s.wf) (hm : s.models l) (hrun : s.popRun t = some s2) :
    s2.wf ∧ s2.models (popModel l t) ∧ s2.capacity ≤ s.capacity ∧
    (s.capPow2 → s2.capPow2) := by
  induction t generalizing s l with
  | nil =>
    rw [popRun] at hrun
    cases hrun
    exact ⟨hw, hm, le_refl _, fun h => h⟩
  | cons o t ih =>
    have hs : 0 < s.size_ := by
      by_contra h0
      have h0' : s.size_ = 0 := by omega
      have : s.applyPop o = none := by
        cases o <;> simp [applyPop, popFront, popBack, h0']
      rw [popRun, this] at hrun
      simp at hrun
    cases o with
    | front =>
      obtain ⟨v, s', heq, hw', hsize', _, hcap', hget'⟩ := s.popFront_spec hw hs
      have hrun' : s'.popRun t = some s2 := by
        rw [popRun] at hrun
        simpa [applyPop, heq] using hrun
      have hm' := models_shift hm hsize' hget'
      obtain ⟨h1, h2, h3, h4⟩ := ih hw' hm' hrun'
      have hle : s'.capacity ≤ s.capacity := by
        rw [hcap']
        split
        · rename_i hcond
          have := Nat.div_le_self s.capacity 2
          have h8 : min_cap < s.capacity := hcond.2
          exact max_le (by omega) (by omega)
        · exact le_refl _
      refine ⟨h1, by simpa [popModel] using h2, le_trans h3 hle, ?_⟩
      intro hp
      refine h4 ?_
      unfold capPow2
      rw [hcap']
      split
      · exact capPow2_shrink hp
      · exact hp
    | back =>
      obtain ⟨v, s', heq, hw', hsize', _, hcap', hget'⟩ := s.popBack_spec hw hs
      have hrun' : s'.popRun t = some s2 := by
        rw [popRun] at hrun
        simpa [applyPop, heq] using hrun
      have hm' := models_dropLast hm hsize' hget'
      obtain ⟨h1, h2, h3, h4⟩ := ih hw' hm' hrun'
      have hle : s'.capacity ≤ s.capacity := by
        rw [hcap']
        split
        · rename_i hcond
          have := Nat.div_le_self s.capacity 2
          have h8 : min_cap < s.capacity := hcond.2
          exact max_le (by omega) (by omega)
        · exact le_refl _
      refine ⟨h1, by simpa [popModel] using h2, le_trans h3 hle, ?_⟩
      intro hp
      refine h4 ?_
      unfold capPow2
      rw [hcap']
      split
      · exact capPow2_shrink hp
      · exact hp

lemma init_capPow2 : (init : CBState α).capPow2 := by
  refine ⟨3, le_refl _, ?_⟩
  simp [init, mkCB, capacity, min_cap]

lemma popRun_capacity {t : List CBPop} {s s2 : CBState α} (hw : s.wf)
    (ht : t ≠ []) (hrun : s.popRun t = some s2) :
    s2.capacity < s.capacity ∨
      (s2.capacity = s.capacity ∧
        ¬ (s2.size_ < s.capacity / 4 ∧ min_cap < s.capacity)) := by
  induction t generalizing s with
  | nil => exact absurd rfl ht
  | cons o t ih =>
    have hs : 0 < s.size_ := by
      by_contra h0
      have h0' : s.size_ = 0 := by omega
      have : s.applyPop o = none := by
        cases o <;> simp [applyPop, popFront, popBack, h0']
      rw [popRun, this] at hrun
      simp at hrun
    obtain ⟨s', heq', hw', hsize', hcap'⟩ :
        ∃ s', s.applyPop o = some s' ∧ s'.wf ∧ s'.size_ = s.size_ - 1 ∧
          s'.capacity = (if s.size_ - 1 < s.capacity / 4 ∧ min_cap < s.capacity
                         then max (s.capacity / 2) min_cap else s.capacity) := by
      cases o with
      | front =>
        obtain ⟨v, s', heq, hw', hsize', _, hcap', _⟩ := s.popFront_spec hw hs
        exact ⟨s', by simp [applyPop, heq], hw', hsize', hcap'⟩
      | back =>
        obtain ⟨v, s', heq, hw', hsize', _, hcap', _⟩ := s.popBack_spec hw hs
        exact ⟨s', by simp [applyPop, heq], hw', hsize', hcap'⟩
    have hrun' : s'.popRun t = some s2 := by
      rw [popRun, heq'] at hrun
      simpa using hrun
    have hshrink_lt : (s.size_ - 1 < s.capacity / 4 ∧ min_cap < s.capacity) →
        s'.capacity < s.capacity := by
      intro hcond
      rw [hcap', if_pos hcond]
      have h2 : s.capacity / 2 < s.capacity :=
        Nat.div_lt_self (by have := hcond.2; simp [min_cap] at this; omega) (by norm_num)
      exact max_lt h2 hcond.2
    cases t with
    | nil =>
      rw [popRun] at hrun'
      cases hrun'
      by_cases hcond : (s.size_ - 1 < s.capacity / 4 ∧ min_cap < s.capacity)
      · exact Or.inl (hshrink_lt hcond)
      · refine Or.inr ⟨by rw [hcap', if_neg hcond], ?_⟩
        intro hc
        exact hcond (by rwa [hsize'] at hc)
    | cons o2 t2 =>
      have ih' := ih hw' (by simp) hrun'
      by_cases hcond : (s.size_ - 1 < s.capacity / 4 ∧ min_cap < s.capacity)
      · left
        have h1 : s'.capacity < s.capacity := hshrink_lt hcond
        rcases ih' with h | ⟨h, _⟩
        · omega
        · omega
      · have hceq : s'.capacity = s.capacity := by rw [hcap', if_neg hcond]
        rcases ih' with h | ⟨h, hnc⟩
        · left; omega
        · right
          refine ⟨by omega, ?_⟩
          rw [← hceq]
          exact hnc

end CBState

/-- C8 (amended): starting from a default-constructed `CircularBuffer`,
pushing `K ≥ 9` elements (so that at least one doubling grow occurred) and
then popping — in any front/back interleaving that completes — until fewer
than `K/4` elements remain leaves `capacity()` strictly below its peak (the
capacity reached by the pushes) but never below the minimum capacity floor
`min_cap = 8`, and every remaining element still reads correctly by index.
For `K ≤ 8` the capacity never grows above the floor and cannot shrink, so
"reduced" fails (see the counterexample). -/
theorem ringbuffer_shrink_round_trip {α : Type} {vs : List α} (hK : 9 ≤ vs.length)
    {t : List CBPop} {s2 : CBState α}
    (hrun : ((CBState.init (α := α)).pushAll vs).popRun t = some s2)
    (hstop : 4 * s2.size_ < vs.length) :
    CBState.min_cap ≤ s2.capacity ∧
    s2.capacity < ((CBState.init (α := α)).pushAll vs).capacity ∧
    s2.models (popModel vs t) ∧
    (∀ i, s2.get i = (popModel vs t).get? i) := by
  obtain ⟨hw1, hm1, hp1⟩ :=
    CBState.pushAll_spec CBState.init_wf CBState.init_models_nil CBState.init_capPow2 vs
  rw [List.nil_append] at hm1
  set s1 := (CBState.init (α := α)).pushAll vs with hs1
  obtain ⟨k, hk3, hPk⟩ := hp1
  have hsz1 : s1.size_ = vs.length := hm1.1
  have hKP : vs.length ≤ s1.capacity := by
    have := hw1.2.1
    omega
  have hk4 : 4 ≤ k := by
    by_contra hlt
    have hk3' : k = 3 := by omega
    rw [hk3'] at hPk
    norm_num at hPk
    omega
  have hPbig : CBState.min_cap < s1.capacity := by
    rw [hPk]
    have : (2 : ℕ) ^ 4 ≤ 2 ^ k := Nat.pow_le_pow_right (by norm_num) hk4
    simp [CBState.min_cap]
    omega
  have ht : t ≠ [] := by
    intro hnil
    subst hnil
    rw [CBState.popRun] at hrun
    have hs2 : s1 = s2 := Option.some.inj hrun
    rw [← hs2] at hstop
    omega
  obtain ⟨hw2, hm2, hcle, hcp2⟩ := CBState.popRun_spec hw1 hm1 hrun
  obtain ⟨k2, hk23, hPk2⟩ := hcp2 ⟨k, hk3, hPk⟩
  have hfloor : CBState.min_cap ≤ s2.capacity := by
    rw [hPk2]
    have : (2 : ℕ) ^ 3 ≤ 2 ^ k2 := Nat.pow_le_pow_right (by norm_num) hk23
    simp [CBState.min_cap]
    omega
  have hpeak : s2.capacity < s1.capacity := by
    rcases CBState.popRun_capacity hw1 ht hrun with h | ⟨hceq, hnc⟩
    · exact h
    · exfalso
      have hge : s1.capacity / 4 ≤ s2.size_ := by
        by_contra hlt
        exact hnc ⟨by omega, hPbig⟩
      obtain ⟨m, hm⟩ : ∃ m, k = m + 2 := ⟨k - 2, by omega⟩
      have hP4 : s1.capacity = 2 ^ m * 4 := by
        rw [hPk, hm, pow_succ, pow_succ]
        ring
      have hdiv : s1.capacity / 4 = 2 ^ m := by
        rw [hP4, Nat.mul_div_cancel _ (by norm_num)]
      have : s1.capacity ≤ 4 * s2.size_ := by
        rw [hP4]
        rw [hdiv] at hge
        omega
      omega
  exact ⟨hfloor, hpeak, hm2, hm2.2⟩

/-- C8 counterexample: with `K = 1`, pushing one element on the default
buffer and popping it (leaving `0 < K/4` elements) keeps the capacity at
the floor 8, equal to its peak — the capacity is not reduced. -/
theorem ringbuffer_shrink_round_trip_cex :
    (((CBState.init (α := ℕ)).pushAll [0]).popRun [CBPop.back]).map
        (fun s2 => (s2.size_, s2.capacity)) = some (0, 8) ∧
    ((CBState.init (α := ℕ)).pushAll [0]).capacity = 8 := by
  decide

/-- C8 witness: pushing `0..8` (K = 9, growing capacity to 16) then seven
`pop_back`s leaves 2 elements (`4*2 < 9`), capacity back at the floor 8,
strictly below the peak 16. -/
theorem ringbuffer_shrink_round_trip_witness :
    CBState.min_cap ≤ ((((CBState.init (α := ℕ)).pushAll (List.range 9)).popRun
        (List.replicate 7 CBPop.back)).getD (CBState.init (α := ℕ))).capacity ∧
    ((((CBState.init (α := ℕ)).pushAll (List.range 9)).popRun
        (List.replicate 7 CBPop.back)).getD (CBState.init (α := ℕ))).capacity
      < ((CBState.init (α := ℕ)).pushAll (List.range 9)).capacity := by
  rcases hrun_eval : ((CBState.init (α := ℕ)).pushAll (List.range 9)).popRun
      (List.replicate 7 CBPop.back) with _ | s2
  · have hsome : (((CBState.init (α := ℕ)).pushAll (List.range 9)).popRun
        (List.replicate 7 CBPop.back)).isSome := by decide
    rw [hrun_eval] at hsome
    simp at hsome
  · have hszeval : (((CBState.init (α := ℕ)).pushAll (List.range 9)).popRun
        (List.replicate 7 CBPop.back)).map CBState.size_ = some 2 := by decide
    rw [hrun_eval] at hszeval
    simp only [Option.map_some'] at hszeval
    have hsz2 : s2.size_ = 2 := by
      exact Option.some_injective _ hszeval
    have hmain := ringbuffer_shrink_round_trip (α := ℕ)
      (show 9 ≤ (List.range 9).length by simp) hrun_eval (by rw [hsz2]; simp)
    exact ⟨hmain.1, hmain.2.1⟩

/-! ## SegmentedDeque: `Deque<T>` (Deque.h)

A segment (`FixedArray`) is a fixed block of `fixed_arr_n_elem` slots;
`fixed_arr_n_elem = max((4096 + sizeof(T) - 1)/sizeof(T), 16)` in the
source, so it is always at least 16; the model is parametric in it
(`nelem`).  The deque's `CircularBuffer` of segment handles is modelled by
its logical list of segments — the correspondence between a live
`CircularBuffer` and its logical list is established by the `models`
lemmas above (`push_back` appends, `push_front` prepends, pops remove at
the ends, `operator[]`/`front`/`back` read by logical index, and repacking
preserves the logical list).  A segment is a list of `nelem` slots; raw
(not-yet-constructed) slots hold the `default` junk value, which no
verified operation ever reads.  The doubly-linked `next`/`prev` pointers
of `FixedArray` are used only by the iterator and reflect exactly the
adjacency in the handle buffer, which the list order models. -/

structure DequeState (α : Type) (nelem : ℕ) where
  buffer : List (List α)
  first_idx : ℕ
  last_idx : ℕ
  size_ : ℕ
  deriving DecidableEq

/-- A freshly allocated segment: `nelem` raw slots. -/
def blankSeg (α : Type) [Inhabited α] (nelem : ℕ) : List α :=
  List.replicate nelem default

/-- `SIZE_MAX`: `--last_idx` on `size_t` when `last_idx == 0` wraps to this. -/
def size_t_max : ℕ := 2 ^ 64 - 1

namespace DequeState

variable {α : Type} {nelem : ℕ}

/-- `Deque()`: one freshly allocated (empty) segment,
`first_idx = last_idx = size_ = 0`. -/
def fresh (α : Type) [Inhabited α] (nelem : ℕ) : DequeState α nelem :=
  ⟨[blankSeg α nelem], 0, 0, 0⟩

/-- `emplace_front_impl`: when `first_idx == 0`, read `buffer.front()`
(asserts the handle buffer is nonempty), prepend a fresh segment and set
`first_idx = fixed_arr_n_elem`; then construct at `--first_idx` in the
front segment (whose `operator[]` asserts the index is in range). -/
def emplaceFront [Inhabited α] (d : DequeState α nelem) (v : α) :
    Option (DequeState α nelem) :=
  (if d.first_idx = 0 then
      match d.buffer.head? with
      | none => none
      | some _ =>
        some (⟨blankSeg α nelem :: d.buffer, nelem, d.last_idx, d.size_⟩ :
          DequeState α nelem)
    else some d).bind fun d1 =>
  match d1.buffer with
  | [] => none
  | s :: rest =>
    let f := d1.first_idx - 1
    if f < nelem then
      some ⟨s.set f v :: rest, f, d1.last_idx, d1.size_ + 1⟩
    else none

/-- `emplace_back_impl`: when `last_idx == fixed_arr_n_elem`, read
`buffer.back()` (asserts nonempty), append a fresh segment and set
`last_idx = 0`; then construct at `last_idx++` in the back segment. -/
def emplaceBack [Inhabited α] (d : DequeState α nelem) (v : α) :
    Option (DequeState α nelem) :=
  (if d.last_idx = nelem then
      match d.buffer.getLast? with
      | none => none
      | some _ =>
        some (⟨d.buffer ++ [blankSeg α nelem], d.first_idx, 0, d.size_⟩ :
          DequeState α nelem)
    else some d).bind fun d1 =>
  match d1.buffer.getLast? with
  | none => none
  | some s =>
    if d1.last_idx < nelem then
      some ⟨d1.buffer.dropLast ++ [s.set d1.last_idx v], d1.first_idx,
        d1.last_idx + 1, d1.size_ + 1⟩
    else none

/-- `pop_back`: asserts `size_ > 0`; `--last_idx` (a `size_t`, so 0 wraps
to `SIZE_MAX`, and the subsequent `last_array[last_idx]` assertion fails),
reads `buffer.back()` and moves the slot out; when the decremented
`last_idx` is 0 the now-empty back segment's handle is popped (removing
the deque's only segment when it was the last one) and
`last_idx = fixed_arr_n_elem`. -/
def popBack (d : DequeState α nelem) : Option (α × DequeState α nelem) :=
  if d.size_ = 0 then none
  else
    let l := if d.last_idx = 0 then size_t_max else d.last_idx - 1
    match d.buffer.getLast? with
    | none => none
    | some s =>
      match s.get? l with
      | none => none
      | some v =>
        if l = 0 then some (v, ⟨d.buffer.dropLast, d.first_idx, nelem, d.size_ - 1⟩)
        else some (v, ⟨d.buffer, d.first_idx, l, d.size_ - 1⟩)

/-- `pop_front`: asserts `size_ > 0`; reads `buffer.front()` and moves slot
`first_idx` out; `++first_idx`, and when it reaches `fixed_arr_n_elem` the
now-empty front segment's handle is popped and `first_idx = 0`. -/
def popFront (d : DequeState α nelem) : Option (α × DequeState α nelem) :=
  if d.size_ = 0 then none
  else
    match d.buffer.head? with
    | none => none
    | some s =>
      match s.get? d.first_idx with
      | none => none
      | some v =>
        if d.first_idx + 1 = nelem then
          some (v, ⟨d.buffer.tail, 0, d.last_idx, d.size_ - 1⟩)
        else
          some (v, ⟨d.buffer, d.first_idx + 1, d.last_idx, d.size_ - 1⟩)

/-- The index resolution of `operator[]`: an index inside the head
segment's remaining span (`fixed_arr_n_elem - first_idx`) resolves into
the head segment directly; otherwise the adjusted index is divided by the
segment capacity to pick the segment handle (`+1` for the head) and the
remainder is the offset within it. -/
def resolve (d : DequeState α nelem) (i : ℕ) : ℕ × ℕ :=
  if i < nelem - d.first_idx then (0, d.first_idx + i)
  else ((i - (nelem - d.first_idx)) / nelem + 1, (i - (nelem - d.first_idx)) % nelem)

/-- `operator[]` (read): asserts `index < size_`; resolves the index and
reads the slot (the handle-buffer access asserts the segment index is in
range, the segment access asserts the offset is in range). -/
def get (d : DequeState α nelem) (i : ℕ) : Option α :=
  if i < d.size_ then
    match d.buffer.get? (d.resolve i).1 with
    | none => none
    | some s => s.get? (d.resolve i).2
  else none

/-- `operator[]` (write through the returned reference): same resolution,
stores into the resolved slot. -/
def setAt (d : DequeState α nelem) (i : ℕ) (v : α) :
    Option (DequeState α nelem) :=
  if i < d.size_ then
    if (d.resolve i).1 < d.buffer.length ∧ (d.resolve i).2 < nelem then
      some ⟨d.buffer.set (d.resolve i).1
              ((d.buffer.getD (d.resolve i).1 []).set (d.resolve i).2 v),
            d.first_idx, d.last_idx, d.size_⟩
    else none
  else none

/-- Well-formedness of a reachable deque: every segment has exactly
`nelem` slots, the boundary offsets are in range
(`first_idx < nelem`, `last_idx ≤ nelem`), the bufferless state (reachable
by a pop removing the deque's only segment) has the canonical offsets, and
the element count is consistent with the boundary offsets and the number
of segments. -/
def WF (d : DequeState α nelem) : Prop :=
  (∀ s ∈ d.buffer, s.length = nelem) ∧
  d.first_idx < nelem ∧
  d.last_idx ≤ nelem ∧
  (d.buffer = [] → d.first_idx = 0 ∧ d.last_idx = nelem ∧ d.size_ = 0) ∧
  (d.buffer ≠ [] → d.size_ + d.first_idx = (d.buffer.length - 1) * nelem + d.last_idx)

instance wfDecidable [DecidableEq α] (d : DequeState α nelem) : Decidable d.WF := by
  unfold WF
  infer_instance

end DequeState

/-- The suffix of the logical contents contributed by the segments after
the head: interior segments contribute all their slots, the final (tail)
segment its slots `[0, last_idx)`. -/
def tailPart {α : Type} (l : ℕ) : List (List α) → List α
  | [] => []
  | [t] => t.take l
  | s :: r :: rest => s ++ tailPart l (r :: rest)

namespace DequeState

variable {α : Type} {nelem : ℕ}

/-- The logical contents of the deque, segment by segment: head segment
from `first_idx`, interior segments whole, tail segment up to `last_idx`
(with a single segment occupying `[first_idx, last_idx)`). -/
def contents (d : DequeState α nelem) : List α :=
  match d.buffer with
  | [] => []
  | s :: rest =>
    if rest.isEmpty then (s.take d.last_idx).drop d.first_idx
    else s.drop d.first_idx ++ tailPart d.last_idx rest

end DequeState

lemma tailPart_length {α : Type} {nelem l : ℕ} :
    ∀ {rest : List (List α)}, rest ≠ [] → (∀ s ∈ rest, s.length = nelem) →
    l ≤ nelem → (tailPart l rest).length = (rest.length - 1) * nelem + l := by
  intro rest
  induction rest with
  | nil => intro h; exact absurd rfl h
  | cons s rest ih =>
    intro _ hlen hl
    cases rest with
    | nil =>
      have hs : s.length = nelem := hlen s (by simp)
      simp [tailPart, hs]
      omega
    | cons r rest' =>
      have hs : s.length = nelem := hlen s (by simp)
      have hrec := ih (by simp) (fun u hu => hlen u (by simp [hu])) hl
      simp only [tailPart, List.length_append, hs, hrec, List.length_cons,
        Nat.add_sub_cancel]
      ring

lemma tailPart_get? {α : Type} {nelem l : ℕ} (hn : 0 < nelem) :
    ∀ {rest : List (List α)}, rest ≠ [] → (∀ s ∈ rest, s.length = nelem) →
    l ≤ nelem → ∀ {adj : ℕ}, adj < (rest.length - 1) * nelem + l →
    (tailPart l rest).get? adj
      = (rest.get? (adj / nelem)).bind (fun s => s.get? (adj % nelem)) := by
  intro rest
  induction rest with
  | nil => intro h; exact absurd rfl h
  | cons s rest ih =>
    intro _ hlen hl adj hadj
    cases rest with
    | nil =>
      have hadj' : adj < l := by simpa using hadj
      have hdiv : adj / nelem = 0 := Nat.div_eq_of_lt (by omega)
      have hmod : adj % nelem = adj := Nat.mod_eq_of_lt (by omega)
      simp only [tailPart, hdiv, hmod, List.get?]
      rw [List.get?_take hadj']
      rfl
    | cons r rest' =>
      have hs : s.length = nelem := hlen s (by simp)
      rcases Nat.lt_or_ge adj nelem with hlt | hge
      · have hdiv : adj / nelem = 0 := Nat.div_eq_of_lt hlt
        have hmod : adj % nelem = adj := Nat.mod_eq_of_lt hlt
        simp only [tailPart, hdiv, hmod, List.get?]
        rw [List.get?_append (by omega)]
        rfl
      · have hdiv : adj / nelem = (adj - nelem) / nelem + 1 := by
          rw [Nat.div_eq_sub_div hn hge]
        have hmod : adj % nelem = (adj - nelem) % nelem := Nat.mod_eq_sub_mod hge
        have harg : adj - nelem < ((r :: rest').length - 1) * nelem + l := by
          have hadj2 : adj < (rest'.length + 1) * nelem + l := by simpa using hadj
          have h5 : (rest'.length + 1) * nelem = rest'.length * nelem + nelem := by ring
          have hgoal : adj - nelem < rest'.length * nelem + l := by omega
          simpa using hgoal
        have hrec := ih (by simp) (fun u hu => hlen u (by simp [hu])) hl harg
        simp only [tailPart]
        rw [List.get?_append_right (by omega), hs, hrec, hdiv, hmod]
        rfl

namespace DequeState

variable {α : Type} {nelem : ℕ}

lemma contents_length {d : DequeState α nelem} (hw : d.WF) :
    d.contents.length = d.size_ := by
  obtain ⟨hseg, hf, hl, hemp, hcons⟩ := hw
  rcases hb : d.buffer with _ | ⟨s, rest⟩
  · simp only [contents, hb]
    have := hemp hb
    simp [this.2.2]
  · have hs : s.length = nelem := hseg s (by rw [hb]; simp)
    have heq := hcons (by rw [hb]; simp)
    rw [hb] at heq
    cases rest with
    | nil =>
      simp only [contents, hb, List.isEmpty_nil, if_pos]
      simp only [List.length_cons, List.length_nil] at heq
      simp [List.length_take, hs]
      omega
    | cons r rest' =>
      simp only [contents, hb, List.isEmpty_cons, Bool.false_eq_true, if_false]
      rw [List.length_append, List.length_drop, hs,
        tailPart_length (by simp) (fun u hu => hseg u (by rw [hb]; simp [hu])) hl]
      have heq2 : d.size_ + d.first_idx = (rest'.length + 1) * nelem + d.last_idx := by
        simpa using heq
      have h5 : (rest'.length + 1) * nelem = rest'.length * nelem + nelem := by ring
      have hgoal : nelem - d.first_idx + (rest'.length * nelem + d.last_idx) = d.size_ := by
        omega
      simpa using hgoal

lemma get_eq_contents {d : DequeState α nelem} (hn : 0 < nelem) (hw : d.WF)
    (i : ℕ) : d.get i = d.contents.get? i := by
  have hwc := hw
  obtain ⟨hseg, hf, hl, hemp, hcons⟩ := hw
  rcases Nat.lt_or_ge i d.size_ with hi | hi
  swap
  · rw [show d.get i = none from by simp [get, Nat.not_lt.mpr hi]]
    symm
    rw [List.get?_eq_none, contents_length hwc]
    exact hi
  rcases hb : d.buffer with _ | ⟨s, rest⟩
  · exfalso
    have := (hemp hb).2.2
    omega
  have hs : s.length = nelem := hseg s (by rw [hb]; simp)
  have hne : d.buffer ≠ [] := by rw [hb]; simp
  have heq := hcons hne
  rw [hb] at heq
  cases rest with
  | nil =>
    -- single segment: occupied slots are [first_idx, last_idx)
    simp only [List.length_cons, List.length_nil] at heq
    have hil : i < d.last_idx - d.first_idx := by omega
    have hhead : i < nelem - d.first_idx := by omega
    simp only [get, if_pos hi, resolve, if_pos hhead, hb, List.get?]
    simp only [contents, hb, List.isEmpty_nil, if_pos]
    rw [List.get?_drop, List.get?_take (by omega : d.first_idx + i < d.last_idx)]
  | cons r rest' =>
    have hlenrest : ∀ u ∈ (r :: rest'), u.length = nelem := by
      intro u hu
      exact hseg u (by rw [hb]; simp [hu])
    have hsz : d.size_ + d.first_idx = (rest'.length + 1) * nelem + d.last_idx := by
      simpa using heq
    simp only [contents, hb, List.isEmpty_cons, Bool.false_eq_true, if_false]
    rcases Nat.lt_or_ge i (nelem - d.first_idx) with hhead | htail
    · -- resolves into the head segment
      simp only [get, if_pos hi, resolve, if_pos hhead, hb, List.get?]
      rw [List.get?_append (by rw [List.length_drop, hs]; omega), List.get?_drop]
    · -- resolves past the head: divide by the segment capacity
      have hnn : ¬ i < nelem - d.first_idx := by omega
      simp only [get, if_pos hi, resolve, if_neg hnn, hb]
      set adj := i - (nelem - d.first_idx) with hadj
      have hadjlt : adj < ((r :: rest').length - 1) * nelem + d.last_idx := by
        have h5 : (rest'.length + 1) * nelem = rest'.length * nelem + nelem := by ring
        have hgoal : adj < rest'.length * nelem + d.last_idx := by omega
        simpa using hgoal
      rw [List.get?_append_right (by rw [List.length_drop, hs]; omega)]
      rw [List.length_drop, hs, ← hadj]
      rw [tailPart_get? hn (by simp) hlenrest hl hadjlt]
      have hgetsucc : (s :: r :: rest').get? (adj / nelem + 1) = (r :: rest').get? (adj / nelem) := by
        simp [List.get?]
      rw [hgetsucc]
      cases (r :: rest').get? (adj / nelem) with
      | none => rfl
      | some u => rfl

end DequeState

lemma drop_cons_of_get? {β : Type} {s : List β} {f : ℕ} {v : β}
    (h : s.get? f = some v) : s.drop f = v :: s.drop (f + 1) := by
  have hf : f < s.length := by
    by_contra hge
    rw [List.get?_eq_none.mpr (by omega)] at h
    exact Option.noConfusion h
  rw [List.drop_eq_getElem_cons hf]
  congr 1
  rw [List.get?_eq_getElem?, List.getElem?_eq_getElem hf] at h
  exact Option.some.inj h

lemma take_succ_of_get? {β : Type} {s : List β} {n : ℕ} {v : β}
    (h : s.get? n = some v) : s.take (n + 1) = s.take n ++ [v] := by
  rw [List.take_succ]
  congr 1
  rw [List.get?_eq_getElem?] at h
  rw [h]
  rfl

lemma set_take_succ {β : Type} {s : List β} {l : ℕ} (h : l < s.length) (v : β) :
    (s.set l v).take (l + 1) = s.take l ++ [v] := by
  rw [take_succ_of_get? (List.get?_set_eq_of_lt v (by simpa using h))]
  congr 1
  apply List.ext_get?
  intro n
  rcases Nat.lt_or_ge n l with hn | hn
  · rw [List.get?_take hn, List.get?_take hn, List.get?_set_ne _ _ (by omega)]
  · rw [List.get?_eq_none.mpr (by simp [List.length_take]; omega),
      List.get?_eq_none.mpr (by simp [List.length_take]; omega)]

lemma set_take_drop_pred {β : Type} {s : List β} {f L : ℕ} (hf1 : 1 ≤ f)
    (hfL : f ≤ L) (hLs : L ≤ s.length) (v : β) :
    ((s.set (f - 1) v).take L).drop (f - 1) = v :: (s.take L).drop f := by
  apply List.ext_get?
  intro n
  rw [List.get?_drop]
  cases n with
  | zero =>
    rw [Nat.add_zero, List.get?_take (by omega), List.get?_set_eq_of_lt _ (by omega)]
    rfl
  | succ m =>
    have hidx : f - 1 + (m + 1) = f + m := by omega
    rw [hidx]
    show ((s.set (f - 1) v).take L).get? (f + m) = ((s.take L).drop f).get? m
    rw [List.get?_drop]
    rcases Nat.lt_or_ge (f + m) L with hlt | hge
    · rw [List.get?_take hlt, List.get?_take hlt, List.get?_set_ne _ _ (by omega)]
    · rw [List.get?_eq_none.mpr (by simp [List.length_take]; omega),
        List.get?_eq_none.mpr (by simp [List.length_take]; omega)]

lemma tailPart_concat {β : Type} {l : ℕ} :
    ∀ (xs : List (List β)) (t : List β),
      tailPart l (xs ++ [t]) = xs.join ++ t.take l := by
  intro xs
  induction xs with
  | nil => intro t; simp [tailPart]
  | cons x xs ih =>
    intro t
    obtain ⟨y, ys, hys⟩ : ∃ y ys, xs ++ [t] = y :: ys := by
      cases xs <;> exact ⟨_, _, rfl⟩
    rw [List.cons_append, hys]
    simp only [tailPart]
    rw [← hys, ih]
    simp

lemma tailPart_full {β : Type} {nelem : ℕ} :
    ∀ {rest : List (List β)}, (∀ s ∈ rest, s.length = nelem) →
      tailPart nelem rest = rest.join := by
  intro rest
  induction rest with
  | nil => intro _; rfl
  | cons s rest ih =>
    intro hlen
    cases rest with
    | nil =>
      have hs := hlen s (by simp)
      simp [tailPart, List.take_all_of_le (by omega : s.length ≤ nelem)]
    | cons r rest' =>
      simp only [tailPart, ih (fun u hu => hlen u (by simp [hu]))]
      simp

namespace DequeState

variable {α : Type} {nelem : ℕ}

lemma contents_zero_first {rest : List (List α)} {l sz : ℕ} :
    (⟨rest, 0, l, sz⟩ : DequeState α nelem).contents = tailPart l rest := by
  cases rest with
  | nil => rfl
  | cons r rest' =>
    cases rest' with
    | nil => simp [contents, tailPart]
    | cons r2 rest'' => simp [contents, tailPart]

lemma emplaceFront_spec [Inhabited α] {d : DequeState α nelem} (hn : 0 < nelem)
    (hw : d.WF) (hne : d.buffer ≠ []) (v : α) :
    ∃ d', d.emplaceFront v = some d' ∧ d'.WF ∧ d'.buffer ≠ [] ∧
      d'.contents = v :: d.contents ∧ d'.size_ = d.size_ + 1 ∧
      d'.last_idx = d.last_idx := by
  obtain ⟨hseg, hf, hl, hemp, hcons⟩ := hw
  have heq := hcons hne
  obtain ⟨s, rest, hb⟩ : ∃ s rest, d.buffer = s :: rest := by
    cases hbb : d.buffer with
    | nil => exact absurd hbb hne
    | cons s rest => exact ⟨s, rest, rfl⟩
  have hs : s.length = nelem := hseg s (by rw [hb]; simp)
  by_cases hf0 : d.first_idx = 0
  · -- a fresh segment is prepended; the element lands at its last slot
    set b' : List α := (blankSeg α nelem).set (nelem - 1) v with hb'
    have hstep : d.emplaceFront v =
        some ⟨b' :: (s :: rest), nelem - 1, d.last_idx, d.size_ + 1⟩ := by
      simp only [emplaceFront, if_pos hf0, hb, List.head?, Option.some_bind]
      rw [if_pos (show nelem - 1 < nelem by omega)]
    have hblank : b'.drop (nelem - 1) = [v] := by
      have h := set_take_drop_pred (s := blankSeg α nelem) (f := nelem) (L := nelem)
        (by omega) (le_refl _) (by simp [blankSeg]) v
      rw [List.take_all_of_le (by simp [blankSeg, List.length_set]),
        List.take_all_of_le (by simp [blankSeg])] at h
      rw [hb'] at *
      rw [h, List.drop_eq_nil_of_le (by simp [blankSeg])]
    refine ⟨_, hstep, ?_, by simp, ?_, rfl, rfl⟩
    · refine ⟨?_, show nelem - 1 < nelem by omega, hl, by simp, ?_⟩
      · intro u hu
        simp only [List.mem_cons] at hu
        rcases hu with rfl | hu
        · simp [hb', blankSeg, List.length_set]
        · exact hseg u (by rw [hb]; exact List.mem_cons.mpr hu)
      · intro _
        rw [hb] at heq
        simp only [List.length_cons] at heq ⊢
        rw [hf0] at heq
        have h5 : (rest.length + 1) * nelem = rest.length * nelem + nelem := by ring
        have h6 : (rest.length + 1 + 1 - 1) * nelem = rest.length * nelem + nelem := by
          rw [Nat.add_sub_cancel]; ring
        have h7 : (rest.length + 1 - 1) * nelem = rest.length * nelem := by
          rw [Nat.add_sub_cancel]
        rw [h6]
        rw [h7] at heq
        omega
    · -- contents: the new slot prepends to the old contents
      show (⟨b' :: (s :: rest), nelem - 1, d.last_idx, d.size_ + 1⟩ :
          DequeState α nelem).contents = v :: d.contents
      have hcz : d.contents = tailPart d.last_idx (s :: rest) := by
        simp only [contents, hb, hf0]
        cases rest with
        | nil => simp [tailPart]
        | cons r rest' =>
          simp only [List.isEmpty_cons, Bool.false_eq_true, if_false,
            List.drop_zero, tailPart]
      rw [hcz]
      simp only [contents, List.isEmpty_cons, Bool.false_eq_true, if_false]
      rw [hblank]
      rfl
  · -- room in the head segment: the element lands at first_idx - 1
    have hstep : d.emplaceFront v =
        some ⟨s.set (d.first_idx - 1) v :: rest, d.first_idx - 1, d.last_idx,
          d.size_ + 1⟩ := by
      simp only [emplaceFront, if_neg hf0, Option.some_bind, hb]
      rw [if_pos (show d.first_idx - 1 < nelem by omega)]
    refine ⟨_, hstep, ?_, by simp, ?_, rfl, rfl⟩
    · refine ⟨?_, show d.first_idx - 1 < nelem by omega, hl, by simp, ?_⟩
      · intro u hu
        simp only [List.mem_cons] at hu
        rcases hu with rfl | hu
        · simp [List.length_set, hs]
        · exact hseg u (by rw [hb]; exact List.mem_cons_of_mem _ hu)
      · intro _
        rw [hb] at heq
        simp only [List.length_cons] at heq ⊢
        omega
    · rw [hb] at heq
      cases rest with
      | nil =>
        show ((s.set (d.first_idx - 1) v).take d.last_idx).drop (d.first_idx - 1)
            = v :: d.contents
        have hfl : d.first_idx ≤ d.last_idx := by
          simp only [List.length_cons, List.length_nil] at heq
          omega
        rw [set_take_drop_pred (by omega) hfl (by omega) v]
        simp [contents, hb]
      | cons r rest' =>
        show (s.set (d.first_idx - 1) v).drop (d.first_idx - 1)
              ++ tailPart d.last_idx (r :: rest')
            = v :: d.contents
        have h := set_take_drop_pred (s := s) (f := d.first_idx) (L := s.length)
          (by omega) (by omega) (le_refl _) v
        rw [List.take_all_of_le (by simp [List.length_set]),
          List.take_all_of_le (le_refl _)] at h
        rw [h]
        simp only [contents, hb, List.isEmpty_cons, Bool.false_eq_true, if_false]
        rfl

end DequeState

lemma drop_append_left {β : Type} {A B : List β} {n : ℕ} (h : n ≤ A.length) :
    (A ++ B).drop n = A.drop n ++ B := by
  apply List.ext_get?
  intro i
  rw [List.get?_drop]
  rcases Nat.lt_or_ge (n + i) A.length with hlt | hge
  · rw [List.get?_append hlt, List.get?_append (by rw [List.length_drop]; omega),
      List.get?_drop]
  · rw [List.get?_append_right hge,
      List.get?_append_right (by rw [List.length_drop]; omega), List.length_drop]
    congr 1
    omega

namespace DequeState

variable {α : Type} {nelem : ℕ}

lemma emplaceBackDq_spec [Inhabited α] {d : DequeState α nelem} (hn : 0 < nelem)
    (hw : d.WF) (hne : d.buffer ≠ []) (v : α) :
    ∃ d', d.emplaceBack v = some d' ∧ d'.WF ∧ d'.buffer ≠ [] ∧
      d'.contents = d.contents ++ [v] ∧ d'.size_ = d.size_ + 1 ∧
      0 < d'.last_idx := by
  obtain ⟨hseg, hf, hl, hemp, hcons⟩ := hw
  have heq := hcons hne
  obtain ⟨ys, t, hb⟩ : ∃ ys t, d.buffer = ys ++ [t] := by
    rcases List.eq_nil_or_concat d.buffer with h | ⟨ys, t, h⟩
    · exact absurd h hne
    · exact ⟨ys, t, by simpa [List.concat_eq_append] using h⟩
  have ht : t.length = nelem := hseg t (by rw [hb]; simp)
  have hysseg : ∀ u ∈ ys, u.length = nelem := fun u hu =>
    hseg u (by rw [hb]; exact List.mem_append_left _ hu)
  by_cases hln : d.last_idx = nelem
  · -- tail segment full: append a fresh segment, element lands at its slot 0
    set b' : List α := (blankSeg α nelem).set 0 v with hb'
    have hbt1 : b'.take 1 = [v] := by
      rw [hb', show (1 : ℕ) = 0 + 1 from rfl,
        take_succ_of_get? (List.get?_set_eq_of_lt v (by simp [blankSeg]; omega))]
      simp
    have hstep : d.emplaceBack v =
        some ⟨d.buffer ++ [b'], d.first_idx, 1, d.size_ + 1⟩ := by
      have h1 : d.buffer.getLast? = some t := by rw [hb]; exact List.getLast?_concat _
      have h2 : (d.buffer ++ [blankSeg α nelem]).getLast? = some (blankSeg α nelem) :=
        List.getLast?_concat _
      have h3 : (d.buffer ++ [blankSeg α nelem]).dropLast = d.buffer :=
        List.dropLast_concat
      simp only [emplaceBack, if_pos hln, h1, Option.some_bind, h2, h3]
      rw [if_pos hn]
    refine ⟨_, hstep, ?_, by simp, ?_, rfl, Nat.one_pos⟩
    · refine ⟨?_, hf, show (1 : ℕ) ≤ nelem by omega, by simp, ?_⟩
      · intro u hu
        rcases List.mem_append.mp hu with hu | hu
        · exact hseg u hu
        · rw [List.mem_singleton.mp hu]
          simp [hb', blankSeg, List.length_set]
      · intro _
        rw [hb] at heq
        rw [hb]
        simp only [List.length_append, List.length_singleton] at heq ⊢
        rw [hln] at heq
        have h5 : (ys.length + 1) * nelem = ys.length * nelem + nelem := by ring
        have h6 : (ys.length + 1 + 1 - 1) * nelem = ys.length * nelem + nelem := by
          rw [Nat.add_sub_cancel]; ring
        have h7 : (ys.length + 1 - 1) * nelem = ys.length * nelem := by
          rw [Nat.add_sub_cancel]
        rw [h6]
        rw [h7] at heq
        omega
    · -- contents gain [v] at the back
      cases ys with
      | nil =>
        have hb1 : d.buffer = [t] := by simpa using hb
        have hcd : d.contents = t.drop d.first_idx := by
          simp [contents, hb1, hln, List.take_all_of_le (show t.length ≤ nelem by omega)]
        have hshape : d.buffer ++ [b'] = [t, b'] := by rw [hb1]; rfl
        rw [hshape]
        have hcl : (⟨[t, b'], d.first_idx, 1, d.size_ + 1⟩ :
            DequeState α nelem).contents = t.drop d.first_idx ++ b'.take 1 := by
          simp [contents, tailPart]
        rw [hcl, hcd, hbt1]
      | cons u ys' =>
        have hb1 : d.buffer = u :: (ys' ++ [t]) := by simpa using hb
        have hcd : d.contents = u.drop d.first_idx ++ (ys'.join ++ t) := by
          rw [show d.contents = u.drop d.first_idx ++ tailPart d.last_idx (ys' ++ [t]) by
            simp [contents, hb1]]
          rw [tailPart_concat, hln, List.take_all_of_le (show t.length ≤ nelem by omega)]
        have hshape : d.buffer ++ [b'] = u :: ((ys' ++ [t]) ++ [b']) := by
          rw [hb1]; simp
        rw [hshape]
        have hcl : (⟨u :: ((ys' ++ [t]) ++ [b']), d.first_idx, 1, d.size_ + 1⟩ :
            DequeState α nelem).contents
            = u.drop d.first_idx ++ tailPart 1 ((ys' ++ [t]) ++ [b']) := by
          simp [contents]
        rw [hcl, tailPart_concat, hbt1, hcd]
        simp [List.append_assoc]
  · -- room in the tail segment: element lands at last_idx
    have hlt : d.last_idx < nelem := by omega
    have hstep : d.emplaceBack v =
        some ⟨ys ++ [t.set d.last_idx v], d.first_idx, d.last_idx + 1,
          d.size_ + 1⟩ := by
      have h1 : d.buffer.getLast? = some t := by rw [hb]; exact List.getLast?_concat _
      have h3 : d.buffer.dropLast = ys := by rw [hb]; exact List.dropLast_concat
      simp only [emplaceBack, if_neg hln, Option.some_bind, h1, h3]
      rw [if_pos hlt]
    have hset : (t.set d.last_idx v).take (d.last_idx + 1) = t.take d.last_idx ++ [v] :=
      set_take_succ (by omega) v
    refine ⟨_, hstep, ?_, by simp, ?_, rfl, Nat.succ_pos _⟩
    · refine ⟨?_, hf, show d.last_idx + 1 ≤ nelem by omega, by simp, ?_⟩
      · intro u hu
        rcases List.mem_append.mp hu with hu | hu
        · exact hysseg u hu
        · rw [List.mem_singleton.mp hu]
          simp [List.length_set, ht]
      · intro _
        rw [hb] at heq
        simp only [List.length_append, List.length_singleton] at heq ⊢
        omega
    · cases ys with
      | nil =>
        have hb1 : d.buffer = [t] := by simpa using hb
        have hfl : d.first_idx ≤ d.last_idx := by
          rw [hb1] at heq
          simp only [List.length_cons, List.length_nil] at heq
          omega
        have hcd : d.contents = (t.take d.last_idx).drop d.first_idx := by
          simp [contents, hb1]
        have hcl : (⟨[] ++ [t.set d.last_idx v], d.first_idx, d.last_idx + 1,
            d.size_ + 1⟩ : DequeState α nelem).contents
            = ((t.set d.last_idx v).take (d.last_idx + 1)).drop d.first_idx := by
          simp [contents]
        rw [hcl, hset, hcd, drop_append_left (by simp [List.length_take]; omega)]
      | cons u ys' =>
        have hb1 : d.buffer = u :: (ys' ++ [t]) := by simpa using hb
        have hcd : d.contents
            = u.drop d.first_idx ++ (ys'.join ++ t.take d.last_idx) := by
          rw [show d.contents = u.drop d.first_idx ++ tailPart d.last_idx (ys' ++ [t]) by
            simp [contents, hb1]]
          rw [tailPart_concat]
        have hcl : (⟨(u :: ys') ++ [t.set d.last_idx v], d.first_idx, d.last_idx + 1,
            d.size_ + 1⟩ : DequeState α nelem).contents
            = u.drop d.first_idx ++ tailPart (d.last_idx + 1) (ys' ++ [t.set d.last_idx v]) := by
          simp [contents]
        rw [hcl, tailPart_concat, hset, hcd]
        simp [List.append_assoc]

lemma popFrontDq_spec {d : DequeState α nelem} (hn : 0 < nelem) (hw : d.WF)
    (hs : 0 < d.size_) :
    ∃ v d', d.popFront = some (v, d') ∧ d'.WF ∧
      d.contents = v :: d'.contents ∧ d'.size_ = d.size_ - 1 ∧
      d'.last_idx = d.last_idx := by
  obtain ⟨hseg, hf, hl, hemp, hcons⟩ := hw
  have hne : d.buffer ≠ [] := by
    intro h
    have := (hemp h).2.2
    omega
  obtain ⟨s, rest, hb⟩ : ∃ s rest, d.buffer = s :: rest := by
    cases hbb : d.buffer with
    | nil => exact absurd hbb hne
    | cons s rest => exact ⟨s, rest, rfl⟩
  have hslen : s.length = nelem := hseg s (by rw [hb]; simp)
  have heq := hcons hne
  obtain ⟨v, hv⟩ : ∃ v, s.get? d.first_idx = some v := by
    cases hvv : s.get? d.first_idx with
    | none => rw [List.get?_eq_none] at hvv; omega
    | some v => exact ⟨v, rfl⟩
  by_cases hfe : d.first_idx + 1 = nelem
  · -- the front segment's last occupied slot: its handle is removed
    have hstep : d.popFront = some (v, ⟨rest, 0, d.last_idx, d.size_ - 1⟩) := by
      simp only [popFront, if_neg (show ¬ d.size_ = 0 by omega), hb, List.head?, hv,
        List.tail_cons]
      rw [if_pos hfe]
    have hcd' : (⟨rest, 0, d.last_idx, d.size_ - 1⟩ :
        DequeState α nelem).contents = tailPart d.last_idx rest := contents_zero_first
    refine ⟨v, _, hstep, ?_, ?_, rfl, rfl⟩
    · refine ⟨fun u hu => hseg u (by rw [hb]; exact List.mem_cons_of_mem _ hu),
        show (0 : ℕ) < nelem from hn, hl, ?_, ?_⟩
      · intro hrest
        subst hrest
        rw [hb] at heq
        simp only [List.length_cons, List.length_nil] at heq
        refine ⟨rfl, show d.last_idx = nelem by omega, show d.size_ - 1 = 0 by omega⟩
      · intro hrest
        rw [hb] at heq
        obtain ⟨m, hm⟩ : ∃ m, rest.length = m + 1 := by
          cases rest with
          | nil => exact absurd rfl hrest
          | cons a b => exact ⟨b.length, by simp⟩
        simp only [List.length_cons, hm, Nat.add_sub_cancel] at heq ⊢
        have h5 : (m + 1) * nelem = m * nelem + nelem := by ring
        omega
    · rw [hcd']
      cases rest with
      | nil =>
        rw [hb] at heq
        simp only [List.length_cons, List.length_nil] at heq
        have hlast : d.last_idx = nelem := by omega
        simp only [contents, hb, List.isEmpty_nil, if_true, tailPart]
        rw [hlast, List.take_all_of_le (by omega), drop_cons_of_get? hv, hfe,
          List.drop_eq_nil_of_le (by omega)]
      | cons r rest' =>
        simp only [contents, hb, List.isEmpty_cons, Bool.false_eq_true, if_false]
        rw [drop_cons_of_get? hv, hfe, List.drop_eq_nil_of_le (by omega)]
        rfl
  · -- more occupied slots remain in the front segment
    have hstep : d.popFront =
        some (v, ⟨d.buffer, d.first_idx + 1, d.last_idx, d.size_ - 1⟩) := by
      simp only [popFront, if_neg (show ¬ d.size_ = 0 by omega), hb, List.head?, hv]
      rw [if_neg hfe]
    refine ⟨v, _, hstep, ?_, ?_, rfl, rfl⟩
    · refine ⟨hseg, show d.first_idx + 1 < nelem by omega, hl, by simp [hb], ?_⟩
      intro _
      show d.size_ - 1 + (d.first_idx + 1) = (d.buffer.length - 1) * nelem + d.last_idx
      omega
    · cases rest with
      | nil =>
        rw [hb] at heq
        simp only [List.length_cons, List.length_nil] at heq
        have hfl : d.first_idx < d.last_idx := by omega
        simp only [contents, hb, List.isEmpty_nil, if_true]
        rw [drop_cons_of_get? (show (s.take d.last_idx).get? d.first_idx = some v from by
          rw [List.get?_take hfl]; exact hv)]
      | cons r rest' =>
        simp only [contents, hb, List.isEmpty_cons, Bool.false_eq_true, if_false]
        rw [drop_cons_of_get? hv]
        rfl

lemma popBackDq_spec {d : DequeState α nelem} (hn : 0 < nelem) (hw : d.WF)
    (hs : 0 < d.size_) (hl0 : 0 < d.last_idx) :
    ∃ v d', d.popBack = some (v, d') ∧ d'.WF ∧
      d.contents = d'.contents ++ [v] ∧ d'.size_ = d.size_ - 1 ∧
      0 < d'.last_idx := by
  obtain ⟨hseg, hf, hl, hemp, hcons⟩ := hw
  have hne : d.buffer ≠ [] := by
    intro h
    have := (hemp h).2.2
    omega
  obtain ⟨ys, t, hb⟩ : ∃ ys t, d.buffer = ys ++ [t] := by
    rcases List.eq_nil_or_concat d.buffer with h | ⟨ys, t, h⟩
    · exact absurd h hne
    · exact ⟨ys, t, by simpa [List.concat_eq_append] using h⟩
  have ht : t.length = nelem := hseg t (by rw [hb]; simp)
  have hysseg : ∀ u ∈ ys, u.length = nelem := fun u hu =>
    hseg u (by rw [hb]; exact List.mem_append_left _ hu)
  have heq := hcons hne
  obtain ⟨v, hv⟩ : ∃ v, t.get? (d.last_idx - 1) = some v := by
    cases hvv : t.get? (d.last_idx - 1) with
    | none => rw [List.get?_eq_none] at hvv; omega
    | some v => exact ⟨v, rfl⟩
  have hglast : d.buffer.getLast? = some t := by rw [hb]; exact List.getLast?_concat _
  by_cases hone : d.last_idx - 1 = 0
  · -- the back segment becomes empty: its handle is removed
    have hstep : d.popBack = some (v, ⟨ys, d.first_idx, nelem, d.size_ - 1⟩) := by
      simp only [popBack, if_neg (show ¬ d.size_ = 0 by omega),
        if_neg (show ¬ d.last_idx = 0 by omega), hglast, hv]
      rw [if_pos hone]
      have : d.buffer.dropLast = ys := by rw [hb]; exact List.dropLast_concat
      rw [this]
    have hl1 : d.last_idx = 1 := by omega
    refine ⟨v, _, hstep, ?_, ?_, rfl, show (0 : ℕ) < nelem from hn⟩
    · refine ⟨hysseg, hf, le_refl _, ?_, ?_⟩
      · intro hys
        subst hys
        rw [hb] at heq
        simp only [List.length_append, List.length_nil, List.length_singleton] at heq
        rw [hl1] at heq
        refine ⟨show d.first_idx = 0 by omega, rfl, show d.size_ - 1 = 0 by omega⟩
      · intro hys
        rw [hb] at heq
        obtain ⟨m, hm⟩ : ∃ m, ys.length = m + 1 := by
          cases ys with
          | nil => exact absurd rfl hys
          | cons a b => exact ⟨b.length, by simp⟩
        simp only [List.length_append, List.length_singleton, hm,
          Nat.add_sub_cancel] at heq ⊢
        rw [hl1] at heq
        have h5 : (m + 1) * nelem = m * nelem + nelem := by ring
        omega
    · have hvt : t.take 1 = [v] := by
        rw [show (1 : ℕ) = 0 + 1 from rfl, take_succ_of_get? (hone ▸ hv)]
        simp
      cases ys with
      | nil =>
        rw [hb] at heq
        simp only [List.length_append, List.length_nil, List.length_singleton] at heq
        rw [hl1] at heq
        have hf0 : d.first_idx = 0 := by omega
        simp only [contents, hb, List.nil_append, List.isEmpty_nil, if_true]
        rw [hl1, hvt, hf0]
        rfl
      | cons u ys' =>
        have hb1 : d.buffer = u :: (ys' ++ [t]) := by simpa using hb
        have hcd : d.contents = u.drop d.first_idx ++ (ys'.join ++ [v]) := by
          rw [show d.contents = u.drop d.first_idx ++ tailPart d.last_idx (ys' ++ [t]) by
            simp [contents, hb1]]
          rw [tailPart_concat, hl1, hvt]
        rw [hcd]
        cases ys' with
        | nil =>
          have hcl : (⟨[u], d.first_idx, nelem, d.size_ - 1⟩ :
              DequeState α nelem).contents = (u.take nelem).drop d.first_idx := by
            simp [contents]
          rw [hcl, List.take_all_of_le
            (show u.length ≤ nelem by rw [hysseg u (by simp)])]
          simp
        | cons r rest' =>
          have hcl : (⟨u :: (r :: rest'), d.first_idx, nelem, d.size_ - 1⟩ :
              DequeState α nelem).contents
              = u.drop d.first_idx ++ tailPart nelem (r :: rest') := by
            simp [contents]
          rw [hcl, tailPart_full (fun w hw => hysseg w (List.mem_cons_of_mem _ hw))]
          simp [List.append_assoc]
  · -- the back segment keeps occupied slots
    have hstep : d.popBack =
        some (v, ⟨d.buffer, d.first_idx, d.last_idx - 1, d.size_ - 1⟩) := by
      simp only [popBack, if_neg (show ¬ d.size_ = 0 by omega),
        if_neg (show ¬ d.last_idx = 0 by omega), hglast, hv]
      rw [if_neg hone]
    have htake : t.take d.last_idx = t.take (d.last_idx - 1) ++ [v] := by
      rw [show d.last_idx = (d.last_idx - 1) + 1 by omega, take_succ_of_get? hv]
      simp
    refine ⟨v, _, hstep, ?_, ?_, rfl,
      show 0 < d.last_idx - 1 by omega⟩
    · refine ⟨hseg, hf, show d.last_idx - 1 ≤ nelem by omega, by simp [hb], ?_⟩
      intro _
      show d.size_ - 1 + d.first_idx = (d.buffer.length - 1) * nelem + (d.last_idx - 1)
      omega
    · cases ys with
      | nil =>
        have hb1 : d.buffer = [t] := by simpa using hb
        rw [hb1] at heq
        simp only [List.length_cons, List.length_nil] at heq
        have hfl : d.first_idx ≤ d.last_idx - 1 := by omega
        simp only [contents, hb1, List.isEmpty_nil, if_true]
        rw [htake, drop_append_left (by simp [List.length_take]; omega)]
      | cons u ys' =>
        have hb1 : d.buffer = u :: (ys' ++ [t]) := by simpa using hb
        simp only [contents, hb1, List.isEmpty_cons, Bool.false_eq_true, if_false,
          List.isEmpty_eq_true, List.append_eq_nil]
        rw [if_neg (by simp), tailPart_concat, tailPart_concat, htake]
        simp [List.append_assoc]

end DequeState

/-- One public deque operation (`push_back`/`emplace_back`,
`push_front`/`emplace_front`, `pop_back`, `pop_front`). -/
inductive DOp (α : Type) where
  | pushB : α → DOp α
  | pushF : α → DOp α
  | popB : DOp α
  | popF : DOp α
  deriving DecidableEq

/-- Operations that write `last_idx`: `emplace_back` and `pop_back`. -/
def DOp.isBackOp {α : Type} : DOp α → Bool
  | .pushB _ => true
  | .popB => true
  | _ => false

namespace DequeState

variable {α : Type} {nelem : ℕ}

def applyDOp [Inhabited α] (d : DequeState α nelem) : DOp α → Option (DequeState α nelem)
  | .pushB v => d.emplaceBack v
  | .pushF v => d.emplaceFront v
  | .popB => d.popBack.map Prod.snd
  | .popF => d.popFront.map Prod.snd

/-- Replay an operation sequence on a default-constructed deque; `none` as
soon as an operation trips an assertion. -/
def replay [Inhabited α] (nelem : ℕ) (ops : List (DOp α)) :
    Option (DequeState α nelem) :=
  List.foldlM applyDOp (fresh α nelem) ops

lemma fresh_WF [Inhabited α] (hn : 0 < nelem) : (fresh α nelem).WF := by
  refine ⟨?_, hn, Nat.zero_le _, by simp [fresh], ?_⟩
  · intro s hs
    simp only [fresh, List.mem_singleton] at hs
    subst hs
    simp [blankSeg]
  · intro _
    simp [fresh]

lemma fresh_contents [Inhabited α] : (fresh α nelem).contents = [] := by
  simp [fresh, contents]

lemma emplaceBack_nil [Inhabited α] {d : DequeState α nelem} (hbe : d.buffer = [])
    (hle : d.last_idx = nelem) (v : α) : d.emplaceBack v = none := by
  simp [emplaceBack, hbe, hle]

lemma emplaceFront_nil [Inhabited α] {d : DequeState α nelem} (hbe : d.buffer = [])
    (hfe : d.first_idx = 0) (v : α) : d.emplaceFront v = none := by
  simp [emplaceFront, hbe, hfe]

/-- With `last_idx == 0`, `pop_back`'s `--last_idx` wraps to `SIZE_MAX` and
the `FixedArray` bounds assertion fails: no state results. -/
lemma popBack_lzero {d : DequeState α nelem} (hw : d.WF)
    (h64 : nelem ≤ size_t_max) (hlz : d.last_idx = 0) : d.popBack = none := by
  obtain ⟨hseg, hf, hl, hemp, hcons⟩ := hw
  by_cases hs : d.size_ = 0
  · simp [popBack, hs]
  · have hne : d.buffer ≠ [] := by
      intro h
      exact hs (hemp h).2.2
    obtain ⟨ys, t, hb⟩ : ∃ ys t, d.buffer = ys ++ [t] := by
      rcases List.eq_nil_or_concat d.buffer with h | ⟨ys, t, h⟩
      · exact absurd h hne
      · exact ⟨ys, t, by simpa [List.concat_eq_append] using h⟩
    have ht : t.length = nelem := hseg t (by rw [hb]; simp)
    have hglast : d.buffer.getLast? = some t := by
      rw [hb]; exact List.getLast?_concat _
    have hnone : t[size_t_max]? = none := by
      rw [← List.get?_eq_getElem?, List.get?_eq_none]
      omega
    simp [popBack, hs, hlz, hglast, hnone]

lemma applyDOp_inv [Inhabited α] {d d' : DequeState α nelem} {o : DOp α}
    (hn : 0 < nelem) (h64 : nelem ≤ size_t_max) (hw : d.WF)
    (happ : d.applyDOp o = some d') :
    d'.WF ∧ (0 < d.last_idx → 0 < d'.last_idx) ∧
    (o.isBackOp = true → 0 < d'.last_idx) := by
  cases o with
  | pushB v =>
    by_cases hbe : d.buffer = []
    · rw [show d.applyDOp (DOp.pushB v) = d.emplaceBack v from rfl,
        emplaceBack_nil hbe (hw.2.2.2.1 hbe).2.1 v] at happ
      exact Option.noConfusion happ
    · obtain ⟨d2, hstep, hw2, _, _, _, hl2⟩ := emplaceBackDq_spec hn hw hbe v
      rw [show d.applyDOp (DOp.pushB v) = d.emplaceBack v from rfl, hstep] at happ
      cases happ
      exact ⟨hw2, fun _ => hl2, fun _ => hl2⟩
  | pushF v =>
    by_cases hbe : d.buffer = []
    · rw [show d.applyDOp (DOp.pushF v) = d.emplaceFront v from rfl,
        emplaceFront_nil hbe (hw.2.2.2.1 hbe).1 v] at happ
      exact Option.noConfusion happ
    · obtain ⟨d2, hstep, hw2, _, _, _, hl2⟩ := emplaceFront_spec hn hw hbe v
      rw [show d.applyDOp (DOp.pushF v) = d.emplaceFront v from rfl, hstep] at happ
      cases happ
      refine ⟨hw2, fun h => by rw [hl2]; exact h, fun h => by simp [DOp.isBackOp] at h⟩
  | popB =>
    by_cases hs : d.size_ = 0
    · rw [show d.applyDOp DOp.popB = d.popBack.map Prod.snd from rfl] at happ
      simp [popBack, hs] at happ
    · by_cases hlz : d.last_idx = 0
      · rw [show d.applyDOp DOp.popB = d.popBack.map Prod.snd from rfl,
          popBack_lzero hw h64 hlz] at happ
        exact Option.noConfusion happ
      · obtain ⟨v, d2, hstep, hw2, _, _, hl2⟩ := popBackDq_spec hn hw (by omega) (by omega)
        rw [show d.applyDOp DOp.popB = d.popBack.map Prod.snd from rfl, hstep] at happ
        simp only [Option.map_some'] at happ
        cases happ
        exact ⟨hw2, fun _ => hl2, fun _ => hl2⟩
  | popF =>
    by_cases hs : d.size_ = 0
    · rw [show d.applyDOp DOp.popF = d.popFront.map Prod.snd from rfl] at happ
      simp [popFront, hs] at happ
    · obtain ⟨v, d2, hstep, hw2, _, _, hl2⟩ := popFrontDq_spec hn hw (by omega)
      rw [show d.applyDOp DOp.popF = d.popFront.map Prod.snd from rfl, hstep] at happ
      simp only [Option.map_some'] at happ
      cases happ
      refine ⟨hw2, fun h => by rw [hl2]; exact h, fun h => by simp [DOp.isBackOp] at h⟩

lemma foldl_inv [Inhabited α] (hn : 0 < nelem) (h64 : nelem ≤ size_t_max) :
    ∀ (ops : List (DOp α)) {d0 d : DequeState α nelem}, d0.WF →
      List.foldlM applyDOp d0 ops = some d →
      d.WF ∧ ((0 < d0.last_idx ∨ ∃ o ∈ ops, o.isBackOp = true) → 0 < d.last_idx) := by
  intro ops
  induction ops with
  | nil =>
    intro d0 d hw hrun
    rw [List.foldlM_nil] at hrun
    cases hrun
    refine ⟨hw, ?_⟩
    rintro (h | ⟨o, ho, _⟩)
    · exact h
    · exact absurd ho (List.not_mem_nil o)
  | cons o ops ih =>
    intro d0 d hw hrun
    rw [List.foldlM_cons] at hrun
    cases hmid : d0.applyDOp o with
    | none => rw [hmid] at hrun; exact Option.noConfusion hrun
    | some mid =>
      rw [hmid] at hrun
      simp only [Option.bind_eq_bind, Option.some_bind] at hrun
      obtain ⟨hwmid, hpres, hback⟩ := applyDOp_inv hn h64 hw hmid
      obtain ⟨hwd, hld⟩ := ih hwmid hrun
      refine ⟨hwd, ?_⟩
      rintro (h | ⟨o', ho', hbo'⟩)
      · exact hld (Or.inl (hpres h))
      · rcases List.mem_cons.mp ho' with rfl | ho'
        · exact hld (Or.inl (hback hbo'))
        · exact hld (Or.inr ⟨o', ho', hbo'⟩)

/-- Occupied-slot count of segment `k` as determined by the boundary
offsets: a single segment holds `[first_idx, last_idx)`; with several, the
head holds `[first_idx, nelem)`, interior segments are full and the tail
holds `[0, last_idx)`. -/
def segOccupied (d : DequeState α nelem) (k : ℕ) : ℕ :=
  if d.buffer.length ≤ 1 then d.last_idx - d.first_idx
  else if k = 0 then nelem - d.first_idx
  else if k = d.buffer.length - 1 then d.last_idx
  else nelem

end DequeState

/-- C1: evaluation of the failing input.  `push_back(1); pop_back();
push_back(2)` on a fresh deque (modelled at `fixed_arr_n_elem = 16`, the
source's minimum): the pop removes the deque's only segment (the handle
buffer becomes empty with `last_idx = fixed_arr_n_elem`), and the second
push then calls `buffer.back()` on the empty handle buffer — its
`size_ > 0` assertion fails, so the operation cannot complete. -/
theorem deque_push_after_empty_fails :
    DequeState.replay (α := ℕ) 16 [DOp.pushB 1, DOp.popB, DOp.pushB 2] = none ∧
    DequeState.replay (α := ℕ) 16 [DOp.pushB 1, DOp.popB] =
      some ⟨[], 0, 16, 0⟩ := by
  constructor
  · rfl
  · rfl

/-- C6 (amended): in every reachable deque state
`0 ≤ first_offset < segment_capacity` and `last_offset ≤ segment_capacity`
hold; `0 < last_offset` additionally holds in every state reached through
at least one completed `push_back`/`emplace_back` or `pop_back`, but in
the default-constructed state — and after any sequence of front-end
operations only — `last_offset` is `0`. -/
theorem deque_boundary_offsets {α : Type} [Inhabited α] {nelem : ℕ}
    (hn : 0 < nelem) (h64 : nelem ≤ size_t_max) (ops : List (DOp α))
    {d : DequeState α nelem} (hrep : DequeState.replay nelem ops = some d) :
    d.first_idx < nelem ∧ d.last_idx ≤ nelem ∧
    ((∃ o ∈ ops, o.isBackOp = true) → 0 < d.last_idx) := by
  obtain ⟨hw, hback⟩ :=
    DequeState.foldl_inv hn h64 ops (DequeState.fresh_WF hn) hrep
  exact ⟨hw.2.1, hw.2.2.1, fun h => hback (Or.inr h)⟩

/-- C6 counterexample: the default-constructed deque (the empty replay) has
`last_offset = 0`, violating `0 < last_offset ≤ segment_capacity`. -/
theorem deque_boundary_offsets_cex :
    DequeState.replay (α := ℕ) 16 [] = some (DequeState.fresh ℕ 16) ∧
    (DequeState.fresh ℕ 16).last_idx = 0 := ⟨rfl, rfl⟩

/-- C6 witness: after one `push_back` both boundary invariants hold. -/
theorem deque_boundary_offsets_witness :
    ((DequeState.replay (α := ℕ) 16 [DOp.pushB 5]).getD
        (DequeState.fresh ℕ 16)).first_idx < 16 ∧
    0 < ((DequeState.replay (α := ℕ) 16 [DOp.pushB 5]).getD
        (DequeState.fresh ℕ 16)).last_idx := by
  rcases heval : DequeState.replay (α := ℕ) 16 [DOp.pushB 5] with _ | d
  · exact absurd heval (by decide)
  · have h := deque_boundary_offsets (by norm_num)
      (by norm_num [size_t_max]) [DOp.pushB 5] heval
    exact ⟨h.1, h.2.2 ⟨DOp.pushB 5, by simp, rfl⟩⟩

/-- C7 (amended): after every completed operation sequence, a segment can
have zero occupied slots only if the deque is empty (its single remaining
segment) or it is the tail segment with `last_offset = 0` (as left by a
`push_front` performed while `last_offset = 0`, e.g. on a fresh deque);
every other segment — in particular every interior segment — is
nonempty. -/
theorem deque_segments_nonempty {α : Type} [Inhabited α] {nelem : ℕ}
    (hn : 0 < nelem) (h64 : nelem ≤ size_t_max) (ops : List (DOp α))
    {d : DequeState α nelem} (hrep : DequeState.replay nelem ops = some d)
    (k : ℕ) (hk : k < d.buffer.length) (hocc : d.segOccupied k = 0) :
    d.size_ = 0 ∨ (k = d.buffer.length - 1 ∧ d.last_idx = 0) := by
  obtain ⟨hw, _⟩ := DequeState.foldl_inv hn h64 ops (DequeState.fresh_WF hn) hrep
  obtain ⟨hseg, hf, hl, hemp, hcons⟩ := hw
  have hne : d.buffer ≠ [] := by
    intro h
    rw [h] at hk
    simp at hk
  have heq := hcons hne
  unfold DequeState.segOccupied at hocc
  rcases le_or_lt d.buffer.length 1 with hlen | hlen
  · -- single segment: occupied = last - first = size
    rw [if_pos hlen] at hocc
    have hlen1 : d.buffer.length = 1 := by omega
    rw [hlen1] at heq
    simp only [Nat.sub_self, Nat.zero_mul, Nat.zero_add] at heq
    left
    omega
  · rw [if_neg (by omega)] at hocc
    by_cases hk0 : k = 0
    · rw [if_pos hk0] at hocc
      omega
    · rw [if_neg hk0] at hocc
      by_cases hklast : k = d.buffer.length - 1
      · rw [if_pos hklast] at hocc
        exact Or.inr ⟨hklast, hocc⟩
      · rw [if_neg hklast] at hocc
        omega

/-- C7 counterexample: `push_front(42)` on a fresh deque completes and
leaves two segments with the tail segment holding zero occupied slots
while the deque is nonempty. -/
theorem deque_segments_nonempty_cex :
    (DequeState.replay (α := ℕ) 16 [DOp.pushF 42]).map
      (fun d => (d.buffer.length, d.segOccupied 1, d.size_)) = some (2, 0, 1) := by
  decide

/-- C7 witness: the fresh deque's single segment has zero occupied slots
and the theorem attributes this to the deque being empty. -/
theorem deque_segments_nonempty_witness :
    (DequeState.fresh ℕ 16).size_ = 0 ∨
      (0 = (DequeState.fresh ℕ 16).buffer.length - 1 ∧
        (DequeState.fresh ℕ 16).last_idx = 0) :=
  deque_segments_nonempty (by norm_num) (by norm_num [size_t_max]) [] rfl
    0 (by decide) (by decide)

/-- A push-only call: `push_back v` or `push_front v`. -/
inductive PushOp (α : Type) where
  | b : α → PushOp α
  | f : α → PushOp α
  deriving DecidableEq

def PushOp.toOp {α : Type} : PushOp α → DOp α
  | .b v => DOp.pushB v
  | .f v => DOp.pushF v

/-- The logical order implied by a push call sequence: each `push_back`
appends its value, each `push_front` prepends it. -/
def pushModel {α : Type} (l : List α) : List (PushOp α) → List α
  | [] => l
  | PushOp.b v :: ops => pushModel (l ++ [v]) ops
  | PushOp.f v :: ops => pushModel (v :: l) ops

namespace DequeState

variable {α : Type} {nelem : ℕ}

lemma push_replay_from [Inhabited α] (hn : 0 < nelem) :
    ∀ (ops : List (PushOp α)) {d0 : DequeState α nelem}, d0.WF → d0.buffer ≠ [] →
      ∃ d, List.foldlM applyDOp d0 (ops.map PushOp.toOp) = some d ∧ d.WF ∧
        d.buffer ≠ [] ∧ d.contents = pushModel d0.contents ops ∧
        d.size_ = d0.size_ + ops.length := by
  intro ops
  induction ops with
  | nil =>
    intro d0 hw hne
    exact ⟨d0, rfl, hw, hne, rfl, rfl⟩
  | cons o ops ih =>
    intro d0 hw hne
    cases o with
    | b v =>
      obtain ⟨d1, hstep, hw1, hne1, hc1, hs1, _⟩ := emplaceBackDq_spec hn hw hne v
      obtain ⟨d, hrun, hwd, hned, hcd, hsd⟩ := ih hw1 hne1
      refine ⟨d, ?_, hwd, hned, ?_, ?_⟩
      · rw [List.map_cons, List.foldlM_cons]
        rw [show d0.applyDOp (PushOp.toOp (PushOp.b v)) = d0.emplaceBack v from rfl,
          hstep]
        simpa using hrun
      · rw [hcd, hc1]
        rfl
      · rw [hsd, hs1]
        simp [List.length_cons]
        omega
    | f v =>
      obtain ⟨d1, hstep, hw1, hne1, hc1, hs1, _⟩ := emplaceFront_spec hn hw hne v
      obtain ⟨d, hrun, hwd, hned, hcd, hsd⟩ := ih hw1 hne1
      refine ⟨d, ?_, hwd, hned, ?_, ?_⟩
      · rw [List.map_cons, List.foldlM_cons]
        rw [show d0.applyDOp (PushOp.toOp (PushOp.f v)) = d0.emplaceFront v from rfl,
          hstep]
        simpa using hrun
      · rw [hcd, hc1]
        rfl
      · rw [hsd, hs1]
        simp [List.length_cons]
        omega

end DequeState

/-- C3: for any sequence of `push_back`/`push_front` calls on a fresh
deque, every operation completes and reading by increasing index through
`operator[]` reproduces the logical order implied by the call sequence
(`push_front` prepends, `push_back` appends). -/
theorem deque_push_order {α : Type} [Inhabited α] {nelem : ℕ} (hn : 0 < nelem)
    (ops : List (PushOp α)) :
    ∃ d : DequeState α nelem,
      DequeState.replay nelem (ops.map PushOp.toOp) = some d ∧
      d.size_ = ops.length ∧
      ∀ i, d.get i = (pushModel [] ops).get? i := by
  obtain ⟨d, hrun, hw, hne, hc, hs⟩ := DequeState.push_replay_from hn ops
    (DequeState.fresh_WF hn) (by simp [DequeState.fresh])
  refine ⟨d, hrun, ?_, ?_⟩
  · rw [hs]
    simp [DequeState.fresh]
  · intro i
    rw [DequeState.get_eq_contents hn hw, hc, DequeState.fresh_contents]

/-- C3 witness: `push_front 10; push_back 20; push_front 5` yields the
logical order `[5, 10, 20]` readable through `operator[]`. -/
theorem deque_push_order_witness :
    ((DequeState.replay (α := ℕ) 16
        ([PushOp.f 10, PushOp.b 20, PushOp.f 5].map PushOp.toOp)).getD
      (DequeState.fresh ℕ 16)).get 0 = some 5 ∧
    ((DequeState.replay (α := ℕ) 16
        ([PushOp.f 10, PushOp.b 20, PushOp.f 5].map PushOp.toOp)).getD
      (DequeState.fresh ℕ 16)).get 1 = some 10 ∧
    ((DequeState.replay (α := ℕ) 16
        ([PushOp.f 10, PushOp.b 20, PushOp.f 5].map PushOp.toOp)).getD
      (DequeState.fresh ℕ 16)).get 2 = some 20 := by
  obtain ⟨d, hrun, hs, hget⟩ := deque_push_order (α := ℕ)
    (show 0 < 16 by norm_num) [PushOp.f 10, PushOp.b 20, PushOp.f 5]
  rw [hrun]
  refine ⟨?_, ?_, ?_⟩
  · have := hget 0
    simpa [pushModel] using this
  · have := hget 1
    simpa [pushModel] using this
  · have := hget 2
    simpa [pushModel] using this

namespace DequeState

variable {α : Type} {nelem : ℕ}

lemma resolve_lt {d : DequeState α nelem} (hn : 0 < nelem) (hw : d.WF) {i : ℕ}
    (hi : i < d.size_) :
    (d.resolve i).1 < d.buffer.length ∧ (d.resolve i).2 < nelem := by
  obtain ⟨hseg, hf, hl, hemp, hcons⟩ := hw
  have hne : d.buffer ≠ [] := by
    intro h
    have := (hemp h).2.2
    omega
  have heq := hcons hne
  have hlenpos : 0 < d.buffer.length := List.length_pos.mpr hne
  unfold resolve
  by_cases hh : i < nelem - d.first_idx
  · rw [if_pos hh]
    exact ⟨hlenpos, by omega⟩
  · rw [if_neg hh]
    refine ⟨?_, Nat.mod_lt _ hn⟩
    have hadj : i - (nelem - d.first_idx) < (d.buffer.length - 1) * nelem := by
      omega
    have hdivlt : (i - (nelem - d.first_idx)) / nelem < d.buffer.length - 1 :=
      (Nat.div_lt_iff_lt_mul hn).mpr hadj
    omega

/-- The head-span-then-division resolution maps distinct logical indices to
distinct (segment, offset) slots. -/
lemma resolve_inj {d : DequeState α nelem} {i j : ℕ} (hij : i ≠ j) :
    d.resolve i ≠ d.resolve j := by
  unfold resolve
  by_cases hi : i < nelem - d.first_idx <;> by_cases hj : j < nelem - d.first_idx
  · rw [if_pos hi, if_pos hj]
    intro h
    rw [Prod.mk.injEq] at h
    omega
  · rw [if_pos hi, if_neg hj]
    intro h
    rw [Prod.mk.injEq] at h
    exact Nat.succ_ne_zero _ h.1.symm
  · rw [if_neg hi, if_pos hj]
    intro h
    rw [Prod.mk.injEq] at h
    exact Nat.succ_ne_zero _ h.1
  · rw [if_neg hi, if_neg hj]
    intro h
    rw [Prod.mk.injEq] at h
    have h1 : (i - (nelem - d.first_idx)) / nelem
        = (j - (nelem - d.first_idx)) / nelem := Nat.succ_injective h.1
    have heqadj : i - (nelem - d.first_idx) = j - (nelem - d.first_idx) := by
      rw [← Nat.div_add_mod (i - (nelem - d.first_idx)) nelem,
        ← Nat.div_add_mod (j - (nelem - d.first_idx)) nelem, h1, h.2]
    omega

lemma get_of_resolve {d : DequeState α nelem} {i : ℕ} (hi : i < d.size_) :
    d.get i = (d.buffer.get? (d.resolve i).1).bind
      (fun s => s.get? (d.resolve i).2) := by
  simp only [get, if_pos hi]
  cases d.buffer.get? (d.resolve i).1 <;> rfl

end DequeState

/-- C4: on any well-formed deque state and valid index `i < size()`,
writing through `operator[](i)` succeeds, reading `operator[](i)` back
yields the written value, and no other index's value changes — the
head-span-then-division resolution maps each logical index to a unique
slot, independent of how many segment boundaries `i` crosses. -/
theorem deque_index_roundtrip {α : Type} {nelem : ℕ} (hn : 0 < nelem)
    {d : DequeState α nelem} (hw : d.WF) {i : ℕ} (hi : i < d.size_) (v : α) :
    ∃ d', d.setAt i v = some d' ∧ d'.WF ∧ d'.size_ = d.size_ ∧
      d'.get i = some v ∧ ∀ j, j ≠ i → d'.get j = d.get j := by
  obtain ⟨hk, ho⟩ := DequeState.resolve_lt hn hw hi
  have hnebuf : d.buffer ≠ [] := by
    intro h
    rw [h] at hk
    simp at hk
  obtain ⟨seg, hsegk⟩ : ∃ seg, d.buffer.get? (d.resolve i).1 = some seg := by
    cases hc : d.buffer.get? (d.resolve i).1 with
    | none => rw [List.get?_eq_none] at hc; omega
    | some s => exact ⟨s, rfl⟩
  have hgetD : d.buffer.getD (d.resolve i).1 [] = seg := by
    rw [List.getD_eq_getD_get?, hsegk]
    rfl
  have hseglen : seg.length = nelem := hw.1 seg (List.get?_mem hsegk)
  set d' : DequeState α nelem :=
    ⟨d.buffer.set (d.resolve i).1 ((d.buffer.getD (d.resolve i).1 []).set (d.resolve i).2 v),
      d.first_idx, d.last_idx, d.size_⟩ with hd'
  have hstep : d.setAt i v = some d' := by
    simp only [DequeState.setAt, if_pos hi]
    rw [if_pos ⟨hk, ho⟩]
  have hbl : d'.buffer.length = d.buffer.length := by
    simp [hd', List.length_set]
  have hres : ∀ j, d'.resolve j = d.resolve j := fun j => rfl
  have hbufget : ∀ k', k' ≠ (d.resolve i).1 →
      d'.buffer.get? k' = d.buffer.get? k' := by
    intro k' hk'
    show (d.buffer.set (d.resolve i).1 _).get? k' = _
    exact List.get?_set_ne _ _ (fun h => hk' h.symm)
  have hbufgetk : d'.buffer.get? (d.resolve i).1 = some (seg.set (d.resolve i).2 v) := by
    show (d.buffer.set (d.resolve i).1 _).get? (d.resolve i).1 = _
    rw [hgetD]
    exact List.get?_set_eq_of_lt _ hk
  obtain ⟨hseg0, hf0, hl0, hemp0, hcons0⟩ := hw
  refine ⟨d', hstep, ?_, rfl, ?_, ?_⟩
  · refine ⟨?_, hf0, hl0, ?_, ?_⟩
    · intro u hu
      rcases List.mem_or_eq_of_mem_set hu with hu | rfl
      · exact hseg0 u hu
      · rw [hgetD, List.length_set]
        exact hseglen
    · intro h
      have hz : d.buffer.length = 0 := by rw [← hbl, h]; rfl
      exact absurd (List.length_eq_zero.mp hz) hnebuf
    · intro _
      rw [hbl]
      exact hcons0 hnebuf
  · rw [DequeState.get_of_resolve (show i < d'.size_ from hi), hres, hbufgetk]
    show (seg.set (d.resolve i).2 v).get? (d.resolve i).2 = some v
    exact List.get?_set_eq_of_lt _ (by omega)
  · intro j hj
    rcases Nat.lt_or_ge j d.size_ with hjlt | hjge
    · rw [DequeState.get_of_resolve (show j < d'.size_ from hjlt), hres,
        DequeState.get_of_resolve hjlt]
      have hneres := DequeState.resolve_inj (d := d) hj
      by_cases hkk : (d.resolve j).1 = (d.resolve i).1
      · have hoo : (d.resolve j).2 ≠ (d.resolve i).2 := by
          intro hcontra
          exact hneres (Prod.ext hkk hcontra)
        rw [hkk, hbufgetk, hsegk]
        show (seg.set (d.resolve i).2 v).get? (d.resolve j).2 = seg.get? (d.resolve j).2
        exact List.get?_set_ne _ _ (fun h => hoo h.symm)
      · rw [hbufget _ hkk]
    · rw [show d'.get j = none from by simp [DequeState.get, Nat.not_lt.mpr hjge],
        show d.get j = none from by simp [DequeState.get, Nat.not_lt.mpr hjge]]

/-- C4 witness: writing 99 through index 1 of a concrete three-element
deque state and reading it back. -/
theorem deque_index_roundtrip_witness :
    (((⟨[[10, 20, 30, 0, 0, 0, 0, 0, 0, 0, 0, 0, 0, 0, 0, 0]], 0, 3, 3⟩ :
        DS.DequeState ℕ 16).setAt 1 99).bind (fun d' => d'.get 1)) = some 99 ∧
    (((⟨[[10, 20, 30, 0, 0, 0, 0, 0, 0, 0, 0, 0, 0, 0, 0, 0]], 0, 3, 3⟩ :
        DS.DequeState ℕ 16).setAt 1 99).bind (fun d' => d'.get 2)) = some 30 := by
  obtain ⟨d', hset, hw', hsz, hget, hframe⟩ :=
    deque_index_roundtrip (show 0 < 16 by norm_num)
      (show (⟨[[10, 20, 30, 0, 0, 0, 0, 0, 0, 0, 0, 0, 0, 0, 0, 0]], 0, 3, 3⟩ :
        DequeState ℕ 16).WF by decide)
      (show 1 < (⟨[[10, 20, 30, 0, 0, 0, 0, 0, 0, 0, 0, 0, 0, 0, 0, 0]], 0, 3, 3⟩ :
        DequeState ℕ 16).size_ by decide) 99
  rw [hset]
  refine ⟨by simpa using hget, ?_⟩
  have h2 := hframe 2 (by norm_num)
  simp only [Option.some_bind]
  rw [h2]
  decide

/-! ### Move construction and destruction of a `Deque` (C5, C10).

`Deque(Deque&&)` move-constructs the member `CircularBuffer` and copies
`first_idx` / `last_idx` / `size_`, then zeroes all three counters of the
source.  The `CircularBuffer` move constructor transfers the backing
storage and sets `other.data = nullptr` ("Prevent double deletion") but
leaves `other.size_`, `other.begin_pos`, `other.end_pos` and
`other.capacity_` untouched.  `DequeMv` records exactly the fields those
two constructors read and write: `bufData` is the handle buffer's `data`
pointer (`none` = `nullptr`) together with its segments, and `bufSize` is
the handle buffer's `size_` field, which after a move is stale. -/

structure DequeMv (α : Type) where
  bufData : Option (List (List α))
  bufSize : ℕ
  first_idx : ℕ
  last_idx : ℕ
  size_ : ℕ
  deriving DecidableEq

/-- View of a live (never-moved-from) deque state as its field record:
the handle buffer's `data` is valid and its `size_` counts the segments. -/
def DequeState.toMv {α : Type} {nelem : ℕ} (d : DequeState α nelem) : DequeMv α :=
  ⟨some d.buffer, d.buffer.length, d.first_idx, d.last_idx, d.size_⟩

/-- The state produced by `Deque()`: one freshly allocated segment in the
buffer, `first_idx = 0`, `last_idx = 0`, `size_ = 0`. -/
def freshMv (α : Type) [Inhabited α] (nelem : ℕ) : DequeMv α :=
  (DequeState.fresh α nelem).toMv

/-- `Deque(Deque&& other)` (Deque.h 171-177) with the member
`CircularBuffer(CircularBuffer&&)` (TestingTracker.h 333-338): returns
(destination, moved-from source).  The destination receives the buffer
and all counters; the source keeps its stale buffer `size_` field, its
buffer's `data` becomes `nullptr`, and its deque counters are zeroed. -/
def DequeMv.moveCtor {α : Type} (d : DequeMv α) : DequeMv α × DequeMv α :=
  (⟨d.bufData, d.bufSize, d.first_idx, d.last_idx, d.size_⟩,
   ⟨none, d.bufSize, 0, 0, 0⟩)

/-- `begin() == end()` holds exactly when `size_ == 0` (Deque.h 276-281:
`begin` returns `end()` for an empty deque). -/
def DequeMv.beginIsEnd {α : Type} (d : DequeMv α) : Bool :=
  d.size_ == 0

/-- `~Deque` (Deque.h 161-165) runs `item.~T()` once per element of the
iteration range `begin()..end()`, i.e. `size_` times. -/
def DequeMv.dtorElemDestructorCalls {α : Type} (d : DequeMv α) : ℕ :=
  d.size_

/-- After `~Deque` body runs, the member `~CircularBuffer`
(TestingTracker.h 307-311) executes `data[(begin_pos + i) % capacity_].~T()`
for every `i < size_`: this touches memory through `data` unless the loop
is empty, so it is in-bounds exactly when `size_ == 0` or `data` is a
valid pointer. -/
def DequeMv.bufDtorAccessOk {α : Type} (d : DequeMv α) : Bool :=
  d.bufSize == 0 || d.bufData.isSome

/-- C5: move construction transfers the segment-handle buffer, both
boundary offsets and the count to the destination unchanged, and zeroes
the source's `first_idx`, `last_idx` and `size_`; but the moved-from
source is NOT the freshly-constructed empty state: its handle buffer has
a null `data` pointer and retains the stale segment count, whereas the
default constructor installs a valid buffer holding one empty segment. -/
theorem deque_move_transfer {α : Type} [Inhabited α] {nelem : ℕ}
    (d : DequeState α nelem) :
    d.toMv.moveCtor.1 = d.toMv ∧
    d.toMv.moveCtor.2 = ⟨none, d.buffer.length, 0, 0, 0⟩ ∧
    d.toMv.moveCtor.2.bufData = none ∧
    (freshMv α nelem).bufData = some [blankSeg α nelem] :=
  ⟨rfl, rfl, rfl, rfl⟩

/-- C5 counterexample: moving out of even a default-constructed
`Deque<int>` leaves the source different from the freshly-constructed
state — the buffer's `data` is null instead of holding one segment. -/
theorem deque_move_transfer_cex :
    (freshMv ℕ 16).moveCtor.2 ≠ freshMv ℕ 16 ∧
    (freshMv ℕ 16).moveCtor.2.bufData = none ∧
    (freshMv ℕ 16).bufData = some [List.replicate 16 0] := by
  decide

/-- C10: after move-constructing from any deque whose handle buffer is
nonempty (true of every reachable live deque, including a fresh one), the
moved-from source has `size() = 0`, `begin() = end()`, and its destructor
body runs zero element destructors — but the member `~CircularBuffer`
then iterates over the stale positive `size_` with `data = nullptr`,
dereferencing a null pointer: the moved-from source is NOT safely
destructible. -/
theorem deque_moved_from_dtor {α : Type} {nelem : ℕ} (d : DequeState α nelem)
    (h : d.buffer ≠ []) :
    d.toMv.moveCtor.2.size_ = 0 ∧
    d.toMv.moveCtor.2.beginIsEnd = true ∧
    d.toMv.moveCtor.2.dtorElemDestructorCalls = 0 ∧
    d.toMv.moveCtor.2.bufData = none ∧
    0 < d.toMv.moveCtor.2.bufSize ∧
    d.toMv.moveCtor.2.bufDtorAccessOk = false := by
  have hlen : d.buffer.length ≠ 0 := fun hc => h (List.length_eq_zero.mp hc)
  refine ⟨rfl, rfl, rfl, rfl, ?_, ?_⟩
  · show 0 < d.buffer.length
    omega
  · show (d.buffer.length == 0 || (none : Option (List (List α))).isSome) = false
    simp only [Option.isSome_none, Bool.or_false]
    cases hc : d.buffer.length == 0 with
    | false => rfl
    | true => exact absurd (beq_iff_eq.mp hc) hlen

/-- C10 witness: a default-constructed `Deque<int>` has one segment
handle in its buffer; moving from it and destroying the source runs zero
element destructors yet the buffer destructor does one null-pointer slot
access. -/
theorem deque_moved_from_dtor_witness :
    (DequeState.fresh ℕ 16).toMv.moveCtor.2.size_ = 0 ∧
    (DequeState.fresh ℕ 16).toMv.moveCtor.2.beginIsEnd = true ∧
    (DequeState.fresh ℕ 16).toMv.moveCtor.2.dtorElemDestructorCalls = 0 ∧
    (DequeState.fresh ℕ 16).toMv.moveCtor.2.bufData = none ∧
    0 < (DequeState.fresh ℕ 16).toMv.moveCtor.2.bufSize ∧
    (DequeState.fresh ℕ 16).toMv.moveCtor.2.bufDtorAccessOk = false :=
  deque_moved_from_dtor (DequeState.fresh ℕ 16) (by decide)

end DS
